import Mathlib

/-!
# Verification of the multi-radar-integration core pipeline

Shallow embedding, in Lean 4, of the parts of the repository exercised by
the frozen claims:

* the TLV-1010 wire layer: `FuseDualRadar._build_tlv_1010` and the packet
  assembly of `_send_to_visualizer` (src/library/visualizer_dual_tracks.py),
  and `RadarReader._parse_tlv_1010_frame` / `_parse_tlv_1010_data`
  (src/library/radar_reader_dual_1010.py);
* the deframing step of `RadarReader.run`;
* the track-fusion engine `TrackFusion` (src/library/track_fusion.py):
  greedy clustering, weighted merging, and the global-identity table.

Bytes are modelled as natural numbers below 256 in a `List Nat`; 32-bit
fields (uint32 values and IEEE-754 float32 bit patterns alike) are
modelled as natural numbers below 2^32, since `struct.pack('<f', v)`
followed by `struct.unpack('f', ...)` is exactly the identity on the
32-bit pattern of a finite float and the claims about floats are
bit-for-bit claims.  Real-valued fusion arithmetic is modelled over `ℚ`.
-/

namespace RadarInteg

/-! ## Byte-level primitives -/

/-- Little-endian serialization of the low 32 bits of a natural number:
the model of `struct.pack('<I', x)` / `struct.pack('<f', x-bits)`. -/
def le32 (x : Nat) : List Nat :=
  [x % 256, x / 256 % 256, x / 65536 % 256, x / 16777216 % 256]

/-- Read a little-endian 32-bit value at byte offset `off`; the model of
`struct.unpack('I', data[off:off+4])[0]` (out-of-range bytes read as 0;
every use in the embedded parser is guarded by a length check, as in the
source). -/
def readU32 (data : List Nat) (off : Nat) : Nat :=
  data.getD off 0 + 256 * data.getD (off + 1) 0 +
    65536 * data.getD (off + 2) 0 + 16777216 * data.getD (off + 3) 0

theorem le32_length (x : Nat) : (le32 x).length = 4 := rfl

theorem readU32_le32_append (x : Nat) (r : List Nat) (hx : x < 4294967296) :
    readU32 (le32 x ++ r) 0 = x := by
  simp only [le32, readU32, List.cons_append, List.getD, List.get?_cons_zero,
    List.get?_cons_succ, Option.getD_some]
  omega

theorem getD_append_shift (a b : List Nat) (j : Nat) :
    (a ++ b).getD (a.length + j) 0 = b.getD j 0 := by
  induction a with
  | nil => simp
  | cons x a ih =>
    rw [List.cons_append, show (x :: a).length + j = (a.length + j) + 1 by
      simp [Nat.succ_add], List.getD_cons_succ]
    exact ih

theorem readU32_append_right (a b : List Nat) (k : Nat) :
    readU32 (a ++ b) (a.length + k) = readU32 b k := by
  simp only [readU32]
  rw [show a.length + k + 1 = a.length + (k + 1) by omega,
    show a.length + k + 2 = a.length + (k + 2) by omega,
    show a.length + k + 3 = a.length + (k + 3) by omega,
    getD_append_shift, getD_append_shift, getD_append_shift, getD_append_shift]

/-- Peel one serialized 32-bit field off the front of a byte list. -/
theorem readU32_peel (x : Nat) (r : List Nat) (k : Nat) :
    readU32 (le32 x ++ r) (4 + k) = readU32 r k := by
  have := readU32_append_right (le32 x) r k
  rwa [le32_length] at this

/-! ## The 112-byte TLV-1010 target record -/

/-- One 112-byte wire target record.  `tid` models the uint32 track id;
the remaining fields are the 32-bit patterns of the float32 values
(position, velocity, acceleration, gating gain, confidence). -/
structure Trk112 where
  tid : Nat
  posX : Nat
  posY : Nat
  posZ : Nat
  velX : Nat
  velY : Nat
  velZ : Nat
  accX : Nat
  accY : Nat
  accZ : Nat
  g : Nat
  conf : Nat
  deriving Repr, DecidableEq

/-- All 32-bit fields of a record are in range (uint32 values /
bit patterns of finite float32 values). -/
def Trk112.WF (t : Trk112) : Prop :=
  t.tid < 4294967296 ∧ t.posX < 4294967296 ∧ t.posY < 4294967296 ∧
  t.posZ < 4294967296 ∧ t.velX < 4294967296 ∧ t.velY < 4294967296 ∧
  t.velZ < 4294967296 ∧ t.accX < 4294967296 ∧ t.accY < 4294967296 ∧
  t.accZ < 4294967296 ∧ t.g < 4294967296 ∧ t.conf < 4294967296

instance (t : Trk112) : Decidable t.WF := by
  unfold Trk112.WF; infer_instance

/-- `FuseDualRadar._build_tlv_1010`, per-track body: tid, pos x/y/z,
vel x/y/z, acc x/y/z, a 64-byte error-covariance block, gating gain,
confidence — 112 bytes.  The covariance block is 16 packed float32
values computed from the confidence by float arithmetic
(`ec_scale = (1.0 - conf) * 0.1`); since the parser never reads those
bytes, the block is abstracted as a function `ecf` of the confidence
bit pattern producing 64 bytes, and the round-trip theorem is proved
for every such function. -/
def buildTrack (ecf : Nat → List Nat) (t : Trk112) : List Nat :=
  le32 t.tid ++ le32 t.posX ++ le32 t.posY ++ le32 t.posZ ++
  le32 t.velX ++ le32 t.velY ++ le32 t.velZ ++
  le32 t.accX ++ le32 t.accY ++ le32 t.accZ ++
  ecf t.conf ++ le32 t.g ++ le32 t.conf

/-- `FuseDualRadar._build_tlv_1010`: concatenation of the per-track
records. -/
def build_tlv_1010 (ecf : Nat → List Nat) (ts : List Trk112) : List Nat :=
  (ts.map (buildTrack ecf)).flatten

/-- The 8-byte TI mmWave magic word `\x02\x01\x04\x03\x06\x05\x08\x07`. -/
def MAGICB : List Nat := [2, 1, 4, 3, 6, 5, 8, 7]

/-- Packet assembly of `FuseDualRadar._send_to_visualizer`: magic word,
40-byte header (version, totalPacketLength, platform, frameNumber,
timeCpuCycles, numDetectedObj, numTLVs = 1, subframe = 0), an 8-byte
TLV header (type 1010, length), then the TLV-1010 body. -/
def buildPacket (ecf : Nat → List Nat) (frameCount timeCpu : Nat)
    (ts : List Trk112) : List Nat :=
  let tlv := build_tlv_1010 ecf ts
  MAGICB ++ le32 0xA1642333 ++ le32 (40 + 8 + tlv.length) ++ le32 0xA6843 ++
    le32 frameCount ++ le32 timeCpu ++ le32 ts.length ++ le32 1 ++ le32 0 ++
    le32 1010 ++ le32 tlv.length ++ tlv

/-! ## The parser (`RadarReader`) -/

/-- One iteration body of `_parse_tlv_1010_data`:
`target_data = tlv_data[offset : offset+112]`, length-checked, then the
eleven guarded `struct.unpack` reads at their byte offsets. -/
def parseTarget (d : List Nat) : Option Trk112 :=
  if d.length < 112 then none
  else some {
    tid := readU32 d 0
    posX := readU32 d 4, posY := readU32 d 8, posZ := readU32 d 12
    velX := readU32 d 16, velY := readU32 d 20, velZ := readU32 d 24
    accX := readU32 d 28, accY := readU32 d 32, accZ := readU32 d 36
    g := readU32 d 104, conf := readU32 d 108 }

/-- The loop of `_parse_tlv_1010_data`: `num_targets = len(tlv_data)//112`
iterations over consecutive 112-byte slices (`tlv_data[112*i : 112*i+112]`,
written here as successive drops), breaking on a short slice. -/
def parseTargetsGo : Nat → List Nat → List Trk112
  | 0, _ => []
  | k + 1, d =>
    match parseTarget (d.take 112) with
    | none => []
    | some t => t :: parseTargetsGo k (d.drop 112)

/-- `RadarReader._parse_tlv_1010_data`. -/
def parse_tlv_1010_data (tlv : List Nat) : List Trk112 :=
  parseTargetsGo (tlv.length / 112) tlv

/-- The TLV walk of `_parse_tlv_1010_frame`: `num_tlvs` iterations, each
breaking when the 8-byte TLV header would overrun the buffer, decoding a
type-1010 payload (`data[tlv_data_start : tlv_data_start+tlv_length]`)
into the (replaced, not appended) track list, then advancing by
`8 + tlv_length`. -/
def tlvWalk (data : List Nat) : Nat → Nat → List Trk112 → List Trk112
  | 0, _, tracks => tracks
  | k + 1, start, tracks =>
    if start + 8 > data.length then tracks
    else
      let ty := readU32 data start
      let len := readU32 data (start + 4)
      let tracks' := if ty = 1010 then
          parse_tlv_1010_data ((data.drop (start + 8)).take len)
        else tracks
      tlvWalk data k (start + 8 + len) tracks'

/-- `RadarReader._parse_tlv_1010_frame`.  Returns
`(tracks?, frame_number, frame_length)`; the two guarded failure paths
(`IncompleteHeader`: fewer than 40 bytes; `IncompleteFrame`: fewer than
`totalPacketLength` bytes) return `(none, 0, 0)`, matching the source's
`(None, 0, 0)`. -/
def parse_tlv_1010_frame (data : List Nat) :
    Option (List Trk112) × Nat × Nat :=
  if data.length < 40 then (none, 0, 0)
  else
    let total_packet_len := readU32 data 12
    let frame_number := readU32 data 20
    let num_tlvs := readU32 data 32
    if data.length < total_packet_len then (none, 0, 0)
    else (some (tlvWalk data num_tlvs 40 []), frame_number, total_packet_len)

/-! ## Round-trip infrastructure -/

/-- A sequence of serialized 32-bit fields followed by a tail. -/
def le32blocks (xs : List Nat) (rest : List Nat) : List Nat :=
  xs.foldr (fun x acc => le32 x ++ acc) rest

theorem le32blocks_nil (rest : List Nat) : le32blocks [] rest = rest := rfl

theorem le32blocks_cons (x : Nat) (xs : List Nat) (rest : List Nat) :
    le32blocks (x :: xs) rest = le32 x ++ le32blocks xs rest := rfl

theorem le32blocks_length (xs rest : List Nat) :
    (le32blocks xs rest).length = 4 * xs.length + rest.length := by
  induction xs with
  | nil => simp [le32blocks]
  | cons x xs ih =>
    simp only [le32blocks_cons, List.length_append, le32_length, ih,
      List.length_cons]
    ring

theorem readU32_le32blocks (xs rest : List Nat) (i m : Nat) (hm : m = 4 * i)
    (hi : i < xs.length) (hx : xs.getD i 0 < 4294967296) :
    readU32 (le32blocks xs rest) m = xs.getD i 0 := by
  subst hm
  induction xs generalizing i with
  | nil => simp at hi
  | cons x xs ih =>
    cases i with
    | zero =>
      simpa [le32blocks_cons] using readU32_le32_append x (le32blocks xs rest)
        (by simpa using hx)
    | succ i =>
      rw [le32blocks_cons, show 4 * (i + 1) = 4 + 4 * i by ring, readU32_peel]
      exact ih i (by simpa using hi) (by simpa using hx)

theorem readU32_le32blocks_tail (xs rest : List Nat) (m k : Nat)
    (hm : m = 4 * xs.length + k) :
    readU32 (le32blocks xs rest) m = readU32 rest k := by
  subst hm
  induction xs with
  | nil => simp [le32blocks]
  | cons x xs ih =>
    rw [le32blocks_cons,
      show 4 * (x :: xs).length + k = 4 + (4 * xs.length + k) by
        simp [List.length_cons]; ring,
      readU32_peel, ih]

theorem drop_le32blocks (xs rest : List Nat) (m k : Nat)
    (hm : m = 4 * xs.length + k) :
    (le32blocks xs rest).drop m = rest.drop k := by
  subst hm
  induction xs with
  | nil => simp [le32blocks]
  | cons x xs ih =>
    rw [le32blocks_cons,
      show 4 * (x :: xs).length + k = (le32 x).length + (4 * xs.length + k) by
        simp [List.length_cons, le32_length]; ring,
      List.drop_append, ih]

theorem buildTrack_length (ecf : Nat → List Nat) (t : Trk112)
    (hec : (ecf t.conf).length = 64) : (buildTrack ecf t).length = 112 := by
  simp [buildTrack, le32_length, hec]

theorem buildTrack_eq_blocks (ecf : Nat → List Nat) (t : Trk112) :
    buildTrack ecf t = le32blocks
      [t.tid, t.posX, t.posY, t.posZ, t.velX, t.velY, t.velZ,
       t.accX, t.accY, t.accZ]
      (ecf t.conf ++ le32 t.g ++ le32 t.conf) := rfl

theorem readU32_le32_self (x : Nat) (hx : x < 4294967296) :
    readU32 (le32 x) 0 = x := by
  have := readU32_le32_append x [] hx
  simpa using this

/-- Parsing one encoded target record recovers the record. -/
theorem parseTarget_buildTrack (ecf : Nat → List Nat) (t : Trk112)
    (hec : (ecf t.conf).length = 64) (hwf : t.WF) :
    parseTarget (buildTrack ecf t) = some t := by
  rcases t with ⟨tid, px, py, pz, vx, vy, vz, ax, ay, az, gg, cf⟩
  obtain ⟨h1, h2, h3, h4, h5, h6, h7, h8, h9, h10, h11, h12⟩ := hwf
  simp only at hec h1 h2 h3 h4 h5 h6 h7 h8 h9 h10 h11 h12
  have hlen := buildTrack_length ecf ⟨tid, px, py, pz, vx, vy, vz, ax, ay, az,
    gg, cf⟩ hec
  have htail104 : readU32 (ecf cf ++ (le32 gg ++ le32 cf)) 64 = gg := by
    have h := readU32_append_right (ecf cf) (le32 gg ++ le32 cf) 0
    rw [hec] at h
    simpa [readU32_le32_append gg (le32 cf) h11] using h
  have htail108 : readU32 (ecf cf ++ (le32 gg ++ le32 cf)) 68 = cf := by
    have h := readU32_append_right (ecf cf) (le32 gg ++ le32 cf) 4
    rw [hec] at h
    norm_num at h
    have h' := readU32_peel gg (le32 cf) 0
    norm_num at h'
    rw [h, h', readU32_le32_self cf h12]
  rw [parseTarget, if_neg (by omega)]
  rw [buildTrack_eq_blocks]
  simp only [Option.some.injEq, Trk112.mk.injEq]
  refine ⟨?_, ?_, ?_, ?_, ?_, ?_, ?_, ?_, ?_, ?_, ?_, ?_⟩
  · exact readU32_le32blocks _ _ 0 0 rfl (by norm_num) h1
  · exact readU32_le32blocks _ _ 1 4 rfl (by norm_num) h2
  · exact readU32_le32blocks _ _ 2 8 rfl (by norm_num) h3
  · exact readU32_le32blocks _ _ 3 12 rfl (by norm_num) h4
  · exact readU32_le32blocks _ _ 4 16 rfl (by norm_num) h5
  · exact readU32_le32blocks _ _ 5 20 rfl (by norm_num) h6
  · exact readU32_le32blocks _ _ 6 24 rfl (by norm_num) h7
  · exact readU32_le32blocks _ _ 7 28 rfl (by norm_num) h8
  · exact readU32_le32blocks _ _ 8 32 rfl (by norm_num) h9
  · exact readU32_le32blocks _ _ 9 36 rfl (by norm_num) h10
  · rw [readU32_le32blocks_tail _ _ 104 64 (by norm_num), List.append_assoc]
    exact htail104
  · rw [readU32_le32blocks_tail _ _ 108 68 (by norm_num), List.append_assoc]
    exact htail108

theorem build_tlv_1010_length (ecf : Nat → List Nat) (ts : List Trk112)
    (hec : ∀ c, (ecf c).length = 64) :
    (build_tlv_1010 ecf ts).length = 112 * ts.length := by
  induction ts with
  | nil => simp [build_tlv_1010]
  | cons t ts ih =>
    simp only [build_tlv_1010, List.map_cons, List.flatten_cons,
      List.length_append, buildTrack_length ecf t (hec t.conf),
      List.length_cons]
    simp only [build_tlv_1010] at ih
    rw [ih]
    ring

/-- Decoding an encoded TLV-1010 body recovers every record. -/
theorem parse_tlv_1010_data_roundtrip (ecf : Nat → List Nat)
    (ts : List Trk112) (hec : ∀ c, (ecf c).length = 64)
    (hwf : ∀ t ∈ ts, t.WF) :
    parse_tlv_1010_data (build_tlv_1010 ecf ts) = ts := by
  have hlen := build_tlv_1010_length ecf ts hec
  rw [parse_tlv_1010_data, hlen, Nat.mul_div_cancel_left _ (by norm_num)]
  induction ts with
  | nil => rfl
  | cons t ts ih =>
    have hbt := buildTrack_length ecf t (hec t.conf)
    simp only [build_tlv_1010, List.map_cons, List.flatten_cons,
      List.length_cons, parseTargetsGo]
    rw [show buildTrack ecf t ++ (ts.map (buildTrack ecf)).flatten
        = buildTrack ecf t ++ (ts.map (buildTrack ecf)).flatten from rfl]
    rw [show (buildTrack ecf t ++ (ts.map (buildTrack ecf)).flatten).take 112
        = buildTrack ecf t by
      rw [← hbt]
      exact List.take_left _ _]
    rw [parseTarget_buildTrack ecf t (hec t.conf) (hwf t (by simp))]
    rw [show (buildTrack ecf t ++ (ts.map (buildTrack ecf)).flatten).drop 112
        = (ts.map (buildTrack ecf)).flatten by
      rw [← hbt]
      exact List.drop_left _ _]
    have := ih (fun t ht => hwf t (by simp [ht]))
      (by simpa [build_tlv_1010] using
        build_tlv_1010_length ecf ts hec)
    simpa [build_tlv_1010] using this

/-- C1 helper: the assembled packet in `le32blocks` form. -/
theorem buildPacket_eq_blocks (ecf : Nat → List Nat) (fc tc : Nat)
    (ts : List Trk112) :
    buildPacket ecf fc tc ts = MAGICB ++ le32blocks
      [0xA1642333, 40 + 8 + (build_tlv_1010 ecf ts).length, 0xA6843, fc, tc,
       ts.length, 1, 0, 1010, (build_tlv_1010 ecf ts).length]
      (build_tlv_1010 ecf ts) := rfl

theorem buildPacket_length (ecf : Nat → List Nat) (fc tc : Nat)
    (ts : List Trk112) (hec : ∀ c, (ecf c).length = 64) :
    (buildPacket ecf fc tc ts).length = 48 + 112 * ts.length := by
  rw [buildPacket_eq_blocks, List.length_append, le32blocks_length,
    build_tlv_1010_length ecf ts hec]
  simp [MAGICB]
  ring

theorem readU32_buildPacket (ecf : Nat → List Nat) (fc tc : Nat)
    (ts : List Trk112) (i m v : Nat) (hm : m = 8 + 4 * i)
    (hv : [0xA1642333, 40 + 8 + (build_tlv_1010 ecf ts).length, 0xA6843, fc,
      tc, ts.length, 1, 0, 1010,
      (build_tlv_1010 ecf ts).length].getD i 0 = v)
    (hi : i < 10) (hlt : v < 4294967296) :
    readU32 (buildPacket ecf fc tc ts) m = v := by
  subst hm hv
  rw [buildPacket_eq_blocks,
    show 8 + 4 * i = MAGICB.length + 4 * i from rfl, readU32_append_right]
  exact readU32_le32blocks _ _ i _ rfl (by simpa using hi) hlt

/-- C1: Round-trip of the 112-byte target wire layout.  For every list of
at most 50 track records with in-range (finite-float32-pattern / uint32)
fields, encoding with `_build_tlv_1010` wrapped in the magic word, the
40-byte header (numTLVs = 1, totalPacketLength = 48 + 112·N) and the
8-byte TLV header, then parsing with `_parse_tlv_1010_frame`, yields
exactly the encoded records bit-for-bit, the frame number, and the total
packet length. -/
theorem tlv1010_roundtrip (ecf : Nat → List Nat) (fc tc : Nat)
    (ts : List Trk112) (hN : ts.length ≤ 50) (hwf : ∀ t ∈ ts, t.WF)
    (hec : ∀ c, (ecf c).length = 64) (hfc : fc < 4294967296) :
    parse_tlv_1010_frame (buildPacket ecf fc tc ts)
      = (some ts, fc, 48 + 112 * ts.length) := by
  have htlv := build_tlv_1010_length ecf ts hec
  have hplen := buildPacket_length ecf fc tc ts hec
  have h12 : readU32 (buildPacket ecf fc tc ts) 12 = 48 + 112 * ts.length :=
    readU32_buildPacket ecf fc tc ts 1 12 _ (by norm_num)
      (show 40 + 8 + (build_tlv_1010 ecf ts).length = 48 + 112 * ts.length by
        rw [htlv])
      (by norm_num) (by omega)
  have h20 : readU32 (buildPacket ecf fc tc ts) 20 = fc :=
    readU32_buildPacket ecf fc tc ts 3 20 fc (by norm_num) rfl (by norm_num)
      hfc
  have h32 : readU32 (buildPacket ecf fc tc ts) 32 = 1 :=
    readU32_buildPacket ecf fc tc ts 6 32 1 (by norm_num) rfl (by norm_num)
      (by norm_num)
  have h40 : readU32 (buildPacket ecf fc tc ts) 40 = 1010 :=
    readU32_buildPacket ecf fc tc ts 8 40 1010 (by norm_num) rfl (by norm_num)
      (by norm_num)
  have h44 : readU32 (buildPacket ecf fc tc ts) 44 = 112 * ts.length :=
    readU32_buildPacket ecf fc tc ts 9 44 _ (by norm_num)
      (show (build_tlv_1010 ecf ts).length = 112 * ts.length from htlv)
      (by norm_num) (by omega)
  have hdrop : (buildPacket ecf fc tc ts).drop 48 = build_tlv_1010 ecf ts := by
    rw [buildPacket_eq_blocks, show (48 : Nat) = MAGICB.length + 40 from rfl,
      List.drop_append, drop_le32blocks _ _ 40 0 (by norm_num),
      List.drop_zero]
  have harg : List.take (112 * ts.length)
      (List.drop (40 + 8) (buildPacket ecf fc tc ts))
      = build_tlv_1010 ecf ts := by
    rw [show (40 + 8 : Nat) = 48 from rfl, hdrop, ← htlv, List.take_length]
  have hwalk : tlvWalk (buildPacket ecf fc tc ts) 1 40 [] = ts := by
    rw [show (1 : Nat) = 0 + 1 from rfl, tlvWalk, if_neg (by omega), h40, h44]
    simp only [reduceIte, harg,
      parse_tlv_1010_data_roundtrip ecf ts hec hwf, tlvWalk]
  simp only [parse_tlv_1010_frame, h12, h20, h32, hplen, hwalk]
  rw [if_neg (by omega), if_neg (by omega)]

/-- Witness for C1 at a concrete one-track packet. -/
theorem tlv1010_roundtrip_witness :
    parse_tlv_1010_frame (buildPacket (fun _ => List.replicate 64 0) 7 0
      [⟨1, 2, 3, 4, 5, 6, 7, 8, 9, 10, 11, 12⟩])
      = (some [⟨1, 2, 3, 4, 5, 6, 7, 8, 9, 10, 11, 12⟩], 7, 160) :=
  tlv1010_roundtrip (fun _ => List.replicate 64 0) 7 0
    [⟨1, 2, 3, 4, 5, 6, 7, 8, 9, 10, 11, 12⟩]
    (by norm_num) (by decide) (fun c => by simp) (by norm_num)

/-! ## The deframing step of `RadarReader.run` -/

/-- Positions in the buffer at which the 8-byte magic word occurs.  The
magic word's first byte occurs nowhere else in it, so occurrences cannot
overlap and this count coincides with Python's non-overlapping
`bytes.count(MAGIC_WORD)`; the head of this list is `bytes.find`. -/
def magicPositions (buf : List Nat) : List Nat :=
  (List.range buf.length).filter (fun i => MAGICB.isPrefixOf (buf.drop i))

/-- One frame-extraction step of the acquisition loop in
`RadarReader.run` (the body guarded by
`data_buffer.count(MAGIC_WORD) >= 2`): find the first magic word, parse
the frame starting there, drop `start_idx + frame_length` bytes on a
parse with non-zero reported length and `start_idx + len(MAGIC_WORD)`
bytes otherwise.  The subsequent buffer-overflow safety valve
(`len > 100000`) is a separate guard, not part of this frame step. -/
def deframeStep (buf : List Nat) : List Nat :=
  if 2 ≤ (magicPositions buf).length then
    match magicPositions buf with
    | [] => buf
    | s :: _ =>
      let r := parse_tlv_1010_frame (buf.drop s)
      if 0 < r.2.2 then buf.drop (s + r.2.2)
      else buf.drop (s + MAGICB.length)
  else buf

/-- C7: Deframer advance.  With at least two magic occurrences and the
first at `s`, one processing step drops `s + totalPacketLength` bytes
when the parse reported a non-zero length, and `s + 8` bytes when it
reported length zero (in particular whenever it failed). -/
theorem deframe_advance (buf : List Nat) (s : Nat)
    (h2 : 2 ≤ (magicPositions buf).length)
    (hs : (magicPositions buf).head? = some s) :
    (0 < (parse_tlv_1010_frame (buf.drop s)).2.2 →
      deframeStep buf = buf.drop (s + (parse_tlv_1010_frame (buf.drop s)).2.2))
    ∧ ((parse_tlv_1010_frame (buf.drop s)).2.2 = 0 →
      deframeStep buf = buf.drop (s + 8)) := by
  rcases hmp : magicPositions buf with _ | ⟨s', rest⟩
  · rw [hmp] at hs; exact absurd hs (by simp)
  · rw [hmp] at hs
    simp only [List.head?_cons, Option.some.injEq] at hs
    subst hs
    have hd : deframeStep buf =
        if 0 < (parse_tlv_1010_frame (buf.drop s')).2.2
        then buf.drop (s' + (parse_tlv_1010_frame (buf.drop s')).2.2)
        else buf.drop (s' + 8) := by
      rw [deframeStep, hmp, if_pos (hmp ▸ h2)]
      rfl
    refine ⟨fun hpos => ?_, fun hzero => ?_⟩
    · rw [hd, if_pos hpos]
    · rw [hd, if_neg (by omega)]

/-- The parser reports length 0 whenever it fails. -/
theorem parse_fail_length_zero (d : List Nat)
    (h : (parse_tlv_1010_frame d).1 = none) :
    (parse_tlv_1010_frame d).2.2 = 0 := by
  rw [parse_tlv_1010_frame] at *
  by_cases h1 : d.length < 40
  · rw [if_pos h1]
  · rw [if_neg h1] at h ⊢
    by_cases h2 : d.length < readU32 d 12
    · rw [if_pos h2]
    · rw [if_neg h2] at h
      simp at h

theorem parse_incomplete_header (d : List Nat) (h : d.length < 40) :
    parse_tlv_1010_frame d = (none, 0, 0) := by
  rw [parse_tlv_1010_frame, if_pos h]

theorem parse_incomplete_frame (d : List Nat) (h40 : 40 ≤ d.length)
    (hshort : d.length < readU32 d 12) :
    parse_tlv_1010_frame d = (none, 0, 0) := by
  rw [parse_tlv_1010_frame, if_neg (by omega)]
  simp only [if_pos hshort]

/-- C8: Parser failure conditions for a byte string starting at a magic
word: `IncompleteHeader` (fewer than 40 bytes) and `IncompleteFrame`
(fewer bytes than the header's `totalPacketLength`, read little-endian
at offset 12) both return no tracks and reported length 0, decoding no
partial target list. -/
theorem parse_failure_conditions (d : List Nat)
    (_hmagic : MAGICB.isPrefixOf d = true) :
    (d.length < 40 → parse_tlv_1010_frame d = (none, 0, 0)) ∧
    (40 ≤ d.length → d.length < readU32 d 12 →
      parse_tlv_1010_frame d = (none, 0, 0)) :=
  ⟨fun h => parse_incomplete_header d h,
   fun h40 hshort => parse_incomplete_frame d h40 hshort⟩

/-- Witness for C7: a 48-byte empty-target-list frame followed by a
second magic word; the parse succeeds with length 48 and the step drops
exactly 48 bytes. -/
theorem deframe_advance_witness :
    2 ≤ (magicPositions
      (buildPacket (fun _ => List.replicate 64 0) 1 0 [] ++ MAGICB)).length ∧
    (magicPositions
      (buildPacket (fun _ => List.replicate 64 0) 1 0 [] ++ MAGICB)).head?
      = some 0 ∧
    ((0 < (parse_tlv_1010_frame
        ((buildPacket (fun _ => List.replicate 64 0) 1 0 [] ++ MAGICB).drop
          0)).2.2 →
      deframeStep (buildPacket (fun _ => List.replicate 64 0) 1 0 [] ++ MAGICB)
        = (buildPacket (fun _ => List.replicate 64 0) 1 0 [] ++ MAGICB).drop
          (0 + (parse_tlv_1010_frame
            ((buildPacket (fun _ => List.replicate 64 0) 1 0 []
              ++ MAGICB).drop 0)).2.2)) ∧
     ((parse_tlv_1010_frame
        ((buildPacket (fun _ => List.replicate 64 0) 1 0 [] ++ MAGICB).drop
          0)).2.2 = 0 →
      deframeStep (buildPacket (fun _ => List.replicate 64 0) 1 0 [] ++ MAGICB)
        = (buildPacket (fun _ => List.replicate 64 0) 1 0 [] ++ MAGICB).drop
          (0 + 8))) :=
  ⟨by decide, by decide,
    deframe_advance (buildPacket (fun _ => List.replicate 64 0) 1 0 []
      ++ MAGICB) 0 (by decide) (by decide)⟩

/-- Witness for C8: the bare magic word (shorter than 40 bytes), and a
48-byte buffer whose header declares `totalPacketLength = 100`. -/
theorem parse_failure_conditions_witness :
    (MAGICB.length < 40 ∧ parse_tlv_1010_frame MAGICB = (none, 0, 0)) ∧
    (40 ≤ (MAGICB ++ le32blocks [0, 100, 0, 5, 0, 0, 1, 0, 1010, 0] []).length
     ∧ (MAGICB ++ le32blocks [0, 100, 0, 5, 0, 0, 1, 0, 1010, 0] []).length
       < readU32 (MAGICB ++ le32blocks [0, 100, 0, 5, 0, 0, 1, 0, 1010, 0] [])
         12
     ∧ parse_tlv_1010_frame (MAGICB ++ le32blocks [0, 100, 0, 5, 0, 0, 1, 0,
         1010, 0] []) = (none, 0, 0)) :=
  ⟨⟨by decide, (parse_failure_conditions MAGICB (by decide)).1 (by decide)⟩,
   ⟨by decide, by decide,
    (parse_failure_conditions _ (by decide)).2 (by decide) (by decide)⟩⟩

/-! ## Track fusion (`TrackFusion`, src/library/track_fusion.py)

Numeric track data is modelled over `ℚ`.  Python `time.time()` is passed
explicitly as the cycle time `now`; all `time.time()` calls inside one
`fuse_tracks` call are modelled as the same instant. -/

structure Vec3 where
  x : ℚ
  y : ℚ
  z : ℚ
  deriving Repr, DecidableEq

/-- Squared Euclidean distance between two positions. -/
def dist2 (p q : Vec3) : ℚ :=
  (p.x - q.x) ^ 2 + (p.y - q.y) ^ 2 + (p.z - q.z) ^ 2

/-- `cdist(..., metric='euclidean')[i,j] < threshold`, phrased over `ℚ`
without square roots: for a nonnegative Euclidean distance,
`sqrt d2 < thr ↔ 0 < thr ∧ d2 < thr²`. -/
def closeB (p q : Vec3) (thr : ℚ) : Bool :=
  decide (0 < thr) && decide (dist2 p q < thr * thr)

/-- One sensor-local track dict as consumed by `fuse_tracks` (the keys
read by the fusion engine).  Tracks produced by the reader always carry
a `confidence` key, so the `.get('confidence', 0.5)` default of the
source never fires and `conf` is a plain field. -/
structure Track where
  tid : Nat
  pos : Vec3
  vel : Vec3
  acc : Vec3
  conf : ℚ
  deriving Repr, DecidableEq

/-- One frame dict from a radar queue. -/
structure Frame where
  radar_name : String
  timestamp : ℚ
  tracks : List Track
  deriving Repr, DecidableEq

/-- A candidate: `track.copy()` tagged with `radar_name` and the frame
`timestamp` (the flattening loop of `fuse_tracks`). -/
structure Cand where
  tid : Nat
  pos : Vec3
  vel : Vec3
  acc : Vec3
  conf : ℚ
  radar_name : String
  timestamp : ℚ
  deriving Repr, DecidableEq

/-- The identity key `(radar_name, local tid)`. -/
def Cand.key (c : Cand) : String × Nat := (c.radar_name, c.tid)

/-- The flattened candidate list, in input order. -/
def candsOf (frames : List Frame) : List Cand :=
  (frames.map (fun f => f.tracks.map (fun t =>
    ⟨t.tid, t.pos, t.vel, t.acc, t.conf, f.radar_name, f.timestamp⟩))).flatten

/-- An output fused-track dict (the keys the claims are about).
`global_tid` is filled in by the identity-assignment step. -/
structure FusedTrack where
  pos : Vec3
  vel : Vec3
  acc : Vec3
  conf : ℚ
  global_tid : Nat
  num_radars_detected : Nat
  source_radars : List String
  source_tids : List (String × Nat)
  timestamp : ℚ
  deriving Repr, DecidableEq

instance : Inhabited FusedTrack :=
  ⟨⟨⟨0, 0, 0⟩, ⟨0, 0, 0⟩, ⟨0, 0, 0⟩, 0, 0, 0, [], [], 0⟩⟩

/-! ### Python dicts as association lists with unique keys -/

def dlookup {α β : Type} [DecidableEq α] : List (α × β) → α → Option β
  | [], _ => none
  | p :: l, key => if p.1 = key then some p.2 else dlookup l key

/-- `d[key] = v`: update in place if present, else append (Python dict
insertion semantics). -/
def dinsert {α β : Type} [DecidableEq α] (l : List (α × β)) (key : α)
    (v : β) : List (α × β) :=
  if (dlookup l key).isSome then
    l.map (fun p => if p.1 = key then (key, v) else p)
  else l ++ [(key, v)]

/-- The mutable state of a `TrackFusion` instance. -/
structure FState where
  distance_threshold : ℚ
  next_global_tid : Nat
  radar_to_global_tid : List ((String × Nat) × Nat)
  global_tid_last_seen : List (Nat × ℚ)
  tid_timeout : ℚ
  deriving Repr, DecidableEq

/-- `TrackFusion.__init__`: threshold from config, counter at 1, empty
tables, hardcoded 2.0 s timeout. -/
def FState.init (thr : ℚ) : FState := ⟨thr, 1, [], [], 2⟩

/-- `TrackFusion._cleanup_old_tids`: drop every last-seen entry with
`now - last_seen > timeout` and every forward mapping whose value is one
of the dropped global ids. -/
def cleanupOldTids (st : FState) (now : ℚ) : FState :=
  let old := (st.global_tid_last_seen.filter
    (fun p => decide (st.tid_timeout < now - p.2))).map Prod.fst
  { st with
    global_tid_last_seen := st.global_tid_last_seen.filter
      (fun p => !decide (st.tid_timeout < now - p.2)),
    radar_to_global_tid := st.radar_to_global_tid.filter
      (fun kv => decide (kv.2 ∉ old)) }

/-- `TrackFusion._assign_global_tid` (singleton path): reuse the mapped
global id or allocate the counter, refresh the last-seen time, and tag
the track. -/
def assignGlobalTid (st : FState) (now : ℚ) (c : Cand) :
    FState × FusedTrack :=
  let key := c.key
  let (g, st1) :=
    match dlookup st.radar_to_global_tid key with
    | some g => (g, st)
    | none =>
      (st.next_global_tid,
       { st with
          radar_to_global_tid := dinsert st.radar_to_global_tid key
            st.next_global_tid,
          next_global_tid := st.next_global_tid + 1 })
  ({ st1 with global_tid_last_seen := dinsert st1.global_tid_last_seen g now },
   ⟨c.pos, c.vel, c.acc, c.conf, g, 1, [c.radar_name], [key], c.timestamp⟩)

/-- Python `min` over a nonempty list, as head-seeded fold. -/
def listMinNat (x : Nat) (xs : List Nat) : Nat := xs.foldl min x

/-- Python `np.max` over a nonempty list, as head-seeded fold. -/
def listMaxQ (x : ℚ) (xs : List ℚ) : ℚ := xs.foldl max x

/-- `TrackFusion._assign_global_tid_multi`: collect the already-mapped
global ids of the member keys; adopt the smallest, else allocate a fresh
id; re-point every member key; refresh the chosen id's last-seen time. -/
def assignGlobalTidMulti (st : FState) (now : ℚ) (cs : List Cand)
    (f : FusedTrack) : FState × FusedTrack :=
  let existing := cs.filterMap (fun c => dlookup st.radar_to_global_tid c.key)
  let gnext : Nat × Nat :=
    match existing with
    | [] => (st.next_global_tid, st.next_global_tid + 1)
    | e :: es => (listMinNat e es, st.next_global_tid)
  let g := gnext.1
  let r2g := cs.foldl (fun m c => dinsert m c.key g) st.radar_to_global_tid
  ({ st with
      next_global_tid := gnext.2,
      radar_to_global_tid := r2g,
      global_tid_last_seen := dinsert st.global_tid_last_seen g now },
   { f with global_tid := g })

/-- `np.average(vs, weights=ws) = Σ wᵢ·vᵢ / Σ wᵢ`. -/
def npAverage (ws vs : List ℚ) : ℚ := (List.zipWith (· * ·) ws vs).sum / ws.sum

/-- `TrackFusion._merge_multiple_tracks`: confidence-normalized weighted
averages of position/velocity/acceleration, maximum confidence, member
source lists, mean timestamp, then multi identity assignment.  The
one-track early return of the source is kept; the empty case (numpy
would raise, and greedy clusters are never empty) is totalized to the
same shape. -/
def mergeMultipleTracks (st : FState) (now : ℚ) (cs : List Cand) :
    FState × FusedTrack :=
  match cs with
  | [c] => assignGlobalTid st now c
  | _ =>
    let confs := cs.map (·.conf)
    let weights := confs.map (· / confs.sum)
    let fused : FusedTrack := {
      pos := ⟨npAverage weights (cs.map (·.pos.x)),
              npAverage weights (cs.map (·.pos.y)),
              npAverage weights (cs.map (·.pos.z))⟩
      vel := ⟨npAverage weights (cs.map (·.vel.x)),
              npAverage weights (cs.map (·.vel.y)),
              npAverage weights (cs.map (·.vel.z))⟩
      acc := ⟨npAverage weights (cs.map (·.acc.x)),
              npAverage weights (cs.map (·.acc.y)),
              npAverage weights (cs.map (·.acc.z))⟩
      conf := match confs with | [] => 0 | x :: xs => listMaxQ x xs
      global_tid := 0
      num_radars_detected := cs.length
      source_radars := cs.map (·.radar_name)
      source_tids := cs.map Cand.key
      timestamp := (cs.map (·.timestamp)).sum / (cs.length : ℚ) }
    assignGlobalTidMulti st now cs fused

/-! ### Greedy clustering (`fuse_tracks` main loop) -/

/-- `np.where(dist_matrix[i,:] < threshold)[0]`: all candidate indices
within the threshold of candidate `i`. -/
def closeIdxs (ps : List Vec3) (thr : ℚ) (i : Nat) : List Nat :=
  (List.range ps.length).filter
    (fun j => closeB (ps.getD i ⟨0, 0, 0⟩) (ps.getD j ⟨0, 0, 0⟩) thr)

/-- The greedy clustering loop over candidate indices: skip claimed
seeds; otherwise take the unclaimed close set as a cluster when it has
more than one member (claiming every close index), else the seed alone. -/
def greedyGo (ps : List Vec3) (thr : ℚ) :
    List Nat → List Nat → List (List Nat)
  | [], _ => []
  | i :: todo, merged =>
    if i ∈ merged then greedyGo ps thr todo merged
    else
      let cidx := closeIdxs ps thr i
      let ct := cidx.filter (fun j => decide (j ∉ merged))
      if 1 < ct.length then
        ct :: greedyGo ps thr todo (merged ++ cidx)
      else
        [i] :: greedyGo ps thr todo (merged ++ [i])

/-- The clusters (as index lists) formed by `fuse_tracks` over the
candidate list. -/
def clustersOf (cs : List Cand) (thr : ℚ) : List (List Nat) :=
  greedyGo (cs.map (·.pos)) thr (List.range cs.length) []

/-- Indices to candidates (every produced index is in range). -/
def clusterCands (cs : List Cand) (idxs : List Nat) : List Cand :=
  idxs.filterMap (fun i => cs[i]?)

/-- Process one cluster: `_merge_multiple_tracks` when it has more than
one member, `_assign_global_tid` on the seed otherwise. -/
def processCluster (st : FState) (now : ℚ) (cl : List Cand) :
    FState × FusedTrack :=
  if 1 < cl.length then mergeMultipleTracks st now cl
  else
    match cl with
    | [c] => assignGlobalTid st now c
    | _ => (st, default)

/-- Fold the per-cluster processing over the cluster list, threading the
identity state.  The source interleaves cluster formation with
processing in a single loop; the two phases commute because clustering
reads only positions and `merged_indices` while identity assignment
reads only the identity tables. -/
def processClusters (now : ℚ) :
    FState → List (List Cand) → FState × List FusedTrack
  | st, [] => (st, [])
  | st, cl :: rest =>
    let p := processCluster st now cl
    let q := processClusters now p.1 rest
    (q.1, p.2 :: q.2)

/-- `TrackFusion.fuse_tracks`.  Empty frame list: immediate empty return
(before cleanup, as in the source).  Otherwise: cleanup, flatten, empty
candidate list returns empty, else cluster and process. -/
def fuseTracks (st : FState) (now : ℚ) (frames : List Frame) :
    FState × List FusedTrack :=
  if frames.isEmpty then (st, [])
  else
    let st1 := cleanupOldTids st now
    let all := candsOf frames
    if all.isEmpty then (st1, [])
    else
      processClusters now st1
        ((clustersOf all st1.distance_threshold).map (clusterCands all))

/-! ### Association-list lemmas -/

section DictLemmas

variable {α β : Type} [DecidableEq α]

theorem dlookup_eq_none_iff (l : List (α × β)) (k : α) :
    dlookup l k = none ↔ ∀ p ∈ l, p.1 ≠ k := by
  induction l with
  | nil => simp [dlookup]
  | cons p l ih =>
    obtain ⟨a, b⟩ := p
    by_cases ha : a = k
    · simp [dlookup, ha]
    · simp [dlookup, ha, ih]

theorem dlookup_dinsert_self (l : List (α × β)) (k : α) (v : β) :
    dlookup (dinsert l k v) k = some v := by
  rw [dinsert]
  split
  next hsome =>
    induction l with
    | nil => simp [dlookup] at hsome
    | cons p l ih =>
      obtain ⟨a, b⟩ := p
      rw [dlookup] at hsome
      by_cases ha : a = k
      · simp [dlookup, ha]
      · rw [if_neg ha] at hsome
        simpa [dlookup, ha] using ih hsome
  next hnone =>
    induction l with
    | nil => simp [dlookup]
    | cons p l ih =>
      obtain ⟨a, b⟩ := p
      rw [dlookup] at hnone
      by_cases ha : a = k
      · rw [if_pos ha] at hnone; simp at hnone
      · rw [if_neg ha] at hnone
        simpa [dlookup, ha] using ih hnone

theorem dlookup_map_update (l : List (α × β)) (k k' : α) (v : β)
    (h : k' ≠ k) :
    dlookup (l.map (fun p => if p.1 = k then (k, v) else p)) k'
      = dlookup l k' := by
  induction l with
  | nil => rfl
  | cons p l ih =>
    obtain ⟨a, b⟩ := p
    by_cases ha : a = k
    · subst ha
      rw [List.map_cons,
        show (if ((a, b) : α × β).1 = a then (a, v) else (a, b)) = (a, v)
          from if_pos rfl,
        dlookup, dlookup, if_neg (fun hh : a = k' => h hh.symm),
        if_neg (fun hh : a = k' => h hh.symm)]
      exact ih
    · rw [List.map_cons,
        show (if ((a, b) : α × β).1 = k then (k, v) else (a, b)) = (a, b)
          from if_neg ha,
        dlookup, dlookup]
      split
      · rfl
      · exact ih

theorem dlookup_append_single (l : List (α × β)) (k k' : α) (v : β)
    (h : k' ≠ k) : dlookup (l ++ [(k, v)]) k' = dlookup l k' := by
  induction l with
  | nil => simp only [List.nil_append, dlookup, if_neg
      (fun hh : k = k' => h hh.symm)]
  | cons p l ih =>
    rw [List.cons_append, dlookup, dlookup]
    split
    · rfl
    · exact ih

theorem dlookup_dinsert_ne (l : List (α × β)) (k k' : α) (v : β)
    (h : k' ≠ k) : dlookup (dinsert l k v) k' = dlookup l k' := by
  rw [dinsert]
  split
  · exact dlookup_map_update l k k' v h
  · exact dlookup_append_single l k k' v h

/-- Every entry of `dinsert l k v` is `(k, v)` or an original entry. -/
theorem mem_dinsert (l : List (α × β)) (k : α) (v : β) (p : α × β)
    (h : p ∈ dinsert l k v) : p = (k, v) ∨ p ∈ l := by
  rw [dinsert] at h
  split at h
  · rw [List.mem_map] at h
    obtain ⟨q, hq, hqe⟩ := h
    by_cases hk : q.1 = k
    · rw [if_pos hk] at hqe; exact Or.inl hqe.symm
    · rw [if_neg hk] at hqe; exact Or.inr (hqe ▸ hq)
  · rw [List.mem_append] at h
    rcases h with h | h
    · exact Or.inr h
    · simp at h; exact Or.inl (by rw [h])

/-- After `dinsert l k v`, every entry with key `k` has value `v`. -/
theorem dinsert_key_val (l : List (α × β)) (k : α) (v : β) (p : α × β)
    (hp : p ∈ dinsert l k v) (hk : p.1 = k) : p.2 = v := by
  rw [dinsert] at hp
  split at hp
  · rw [List.mem_map] at hp
    obtain ⟨q, hq, hqe⟩ := hp
    by_cases hqk : q.1 = k
    · rw [if_pos hqk] at hqe; rw [← hqe]
    · rw [if_neg hqk] at hqe; exact absurd (hqe ▸ hk) hqk
  · rename_i hnone
    rw [List.mem_append] at hp
    have hnone' : dlookup l k = none := by
      cases he : dlookup l k
      · rfl
      · rw [he] at hnone; simp at hnone
    rcases hp with hp | hp
    · exact absurd hk ((dlookup_eq_none_iff l k).mp hnone' p hp)
    · simp at hp; simp [hp]

/-- A first-match lookup survives a filter that keeps its entry. -/
theorem dlookup_filter (l : List (α × β)) (k : α) (g : β)
    (pb : α × β → Bool) (h : dlookup l k = some g)
    (hkeep : pb (k, g) = true) :
    dlookup (l.filter pb) k = some g := by
  induction l with
  | nil => simp [dlookup] at h
  | cons p l ih =>
    obtain ⟨a, b⟩ := p
    rw [dlookup] at h
    by_cases ha : a = k
    · rw [if_pos ha] at h
      simp only [Option.some.injEq] at h
      subst ha
      subst h
      rw [List.filter_cons, if_pos hkeep, dlookup, if_pos rfl]
    · rw [if_neg ha] at h
      rw [List.filter_cons]
      split
      · rw [dlookup, if_neg ha]; exact ih h
      · exact ih h

/-- Some-lookup yields a member. -/
theorem dlookup_mem (l : List (α × β)) (k : α) (g : β)
    (h : dlookup l k = some g) : (k, g) ∈ l := by
  induction l with
  | nil => simp [dlookup] at h
  | cons p l ih =>
    obtain ⟨a, b⟩ := p
    rw [dlookup] at h
    split at h
    next ha =>
      simp only [Option.some.injEq] at h
      rw [← ha, ← h]
      exact List.mem_cons_self _ _
    · exact List.mem_cons_of_mem _ (ih h)

end DictLemmas

/-! ### A two-cycle scenario: far-apart tracks, then a merge

Two radars "A" and "B", threshold 1 m, timeout 2 s.  In the first cycle
(at t = 0) their tracks are 10 m apart; in the second (at t = 1) they
coincide and merge. -/

def cexFrames1 : List Frame :=
  [⟨"A", 0, [⟨1, ⟨0, 0, 0⟩, ⟨0, 0, 0⟩, ⟨0, 0, 0⟩, 1⟩]⟩,
   ⟨"B", 0, [⟨2, ⟨10, 0, 0⟩, ⟨0, 0, 0⟩, ⟨0, 0, 0⟩, 1⟩]⟩]

def cexFrames2 : List Frame :=
  [⟨"A", 1, [⟨1, ⟨0, 0, 0⟩, ⟨0, 0, 0⟩, ⟨0, 0, 0⟩, 1⟩]⟩,
   ⟨"B", 1, [⟨2, ⟨0, 0, 0⟩, ⟨0, 0, 0⟩, ⟨0, 0, 0⟩, 1⟩]⟩]

/-- First cycle: two singleton tracks get fresh ids 1 and 2. -/
theorem fuseEvalCall1 :
    fuseTracks (FState.init 1) 0 cexFrames1
    = (⟨1, 3, [(("A", 1), 1), (("B", 2), 2)], [(1, 0), (2, 0)], 2⟩,
       [⟨⟨0, 0, 0⟩, ⟨0, 0, 0⟩, ⟨0, 0, 0⟩, 1, 1, 1, ["A"], [("A", 1)], 0⟩,
        ⟨⟨10, 0, 0⟩, ⟨0, 0, 0⟩, ⟨0, 0, 0⟩, 1, 2, 1, ["B"], [("B", 2)], 0⟩]) := by
  norm_num [fuseTracks, candsOf, cleanupOldTids, clustersOf, greedyGo,
    closeIdxs, closeB, dist2, clusterCands, processClusters, processCluster,
    mergeMultipleTracks, assignGlobalTid, assignGlobalTidMulti, dlookup,
    dinsert, FState.init, Cand.key, List.range_succ, listMinNat, listMaxQ,
    npAverage, List.filterMap_cons, List.filterMap_nil,
    List.getElem?_cons_zero, List.getElem?_cons_succ, cexFrames1]

/-- Second cycle: the two tracks coincide, merge, and the cluster adopts
the smaller id 1; the key `("B", 2)` is re-pointed from 2 to 1, and id 2
keeps its last-seen entry with no remaining forward key. -/
theorem fuseEvalCall2 :
    fuseTracks ⟨1, 3, [(("A", 1), 1), (("B", 2), 2)], [(1, 0), (2, 0)], 2⟩ 1
      cexFrames2
    = (⟨1, 3, [(("A", 1), 1), (("B", 2), 1)], [(1, 1), (2, 0)], 2⟩,
       [⟨⟨0, 0, 0⟩, ⟨0, 0, 0⟩, ⟨0, 0, 0⟩, 1, 1, 2, ["A", "B"],
         [("A", 1), ("B", 2)], 1⟩]) := by
  norm_num [fuseTracks, candsOf, cleanupOldTids, clustersOf, greedyGo,
    closeIdxs, closeB, dist2, clusterCands, processClusters, processCluster,
    mergeMultipleTracks, assignGlobalTid, assignGlobalTidMulti, dlookup,
    dinsert, FState.init, Cand.key, List.range_succ, listMinNat, listMaxQ,
    npAverage, List.filterMap_cons, List.filterMap_nil,
    List.getElem?_cons_zero, List.getElem?_cons_succ, cexFrames2]

/-- Counterexample to C2 as stated: in two consecutive `fuse_tracks`
calls 1 s apart (timeout 2 s), the key `("B", 2)` contributes to a fused
track in both calls but is assigned global id 2 in the first and 1 in
the second (the merge adopts the smaller id). -/
theorem identity_stability_counterexample :
    ((1 : ℚ) - 0 < (FState.init 1).tid_timeout) ∧
    ∃ f1 ∈ (fuseTracks (FState.init 1) 0 cexFrames1).2,
    ∃ f2 ∈ (fuseTracks (fuseTracks (FState.init 1) 0 cexFrames1).1 1
      cexFrames2).2,
      ("B", 2) ∈ f1.source_tids ∧ ("B", 2) ∈ f2.source_tids ∧
      f1.global_tid ≠ f2.global_tid := by
  refine ⟨by norm_num [FState.init], ?_⟩
  rw [fuseEvalCall1]
  refine ⟨⟨⟨10, 0, 0⟩, ⟨0, 0, 0⟩, ⟨0, 0, 0⟩, 1, 2, 1, ["B"], [("B", 2)], 0⟩,
    List.Mem.tail _ (List.Mem.head _), ?_⟩
  rw [show ((⟨1, 3, [(("A", 1), 1), (("B", 2), 2)], [(1, 0), (2, 0)], 2⟩,
      [(⟨⟨0, 0, 0⟩, ⟨0, 0, 0⟩, ⟨0, 0, 0⟩, 1, 1, 1, ["A"], [("A", 1)],
        0⟩ : FusedTrack),
       ⟨⟨10, 0, 0⟩, ⟨0, 0, 0⟩, ⟨0, 0, 0⟩, 1, 2, 1, ["B"], [("B", 2)], 0⟩])
      : FState × List FusedTrack).1
      = ⟨1, 3, [(("A", 1), 1), (("B", 2), 2)], [(1, 0), (2, 0)], 2⟩ from rfl,
    fuseEvalCall2]
  exact ⟨⟨⟨0, 0, 0⟩, ⟨0, 0, 0⟩, ⟨0, 0, 0⟩, 1, 1, 2, ["A", "B"],
    [("A", 1), ("B", 2)], 1⟩, List.Mem.head _,
    by decide, by decide, by decide⟩

/-- Counterexample to C3 as stated: after the second call, global id 2
still has a last-seen entry but no `(radar, tid)` key maps to it — the
two sets differ. -/
theorem identity_table_counterexample :
    (∃ p ∈ (fuseTracks (fuseTracks (FState.init 1) 0 cexFrames1).1 1
        cexFrames2).1.global_tid_last_seen, p.1 = 2) ∧
    (∀ kv ∈ (fuseTracks (fuseTracks (FState.init 1) 0 cexFrames1).1 1
        cexFrames2).1.radar_to_global_tid, kv.2 ≠ 2) := by
  rw [fuseEvalCall1]
  rw [show ((⟨1, 3, [(("A", 1), 1), (("B", 2), 2)], [(1, 0), (2, 0)], 2⟩,
      [(⟨⟨0, 0, 0⟩, ⟨0, 0, 0⟩, ⟨0, 0, 0⟩, 1, 1, 1, ["A"], [("A", 1)],
        0⟩ : FusedTrack),
       ⟨⟨10, 0, 0⟩, ⟨0, 0, 0⟩, ⟨0, 0, 0⟩, 1, 2, 1, ["B"], [("B", 2)], 0⟩])
      : FState × List FusedTrack).1
      = ⟨1, 3, [(("A", 1), 1), (("B", 2), 2)], [(1, 0), (2, 0)], 2⟩ from rfl,
    fuseEvalCall2]
  refine ⟨⟨(2, 0), List.Mem.tail _ (List.Mem.head _), rfl⟩, by decide⟩

/-! ### The forward half of the identity-table invariant -/

/-- Every global id appearing as a value of the forward mapping has a
last-seen entry. -/
def FwdInv (st : FState) : Prop :=
  ∀ kv ∈ st.radar_to_global_tid,
    ∃ q ∈ st.global_tid_last_seen, q.1 = kv.2

theorem exists_key_dinsert {β : Type} (l : List (Nat × β)) (g0 g : Nat)
    (v : β) (h : ∃ q ∈ l, q.1 = g0) :
    ∃ q ∈ dinsert l g v, q.1 = g0 := by
  by_cases hg : g0 = g
  · exact ⟨(g, v), dlookup_mem _ _ _ (dlookup_dinsert_self l g v), hg.symm⟩
  · obtain ⟨q, hq, hq0⟩ := h
    rw [dinsert]
    split
    · refine ⟨q, List.mem_map.mpr ⟨q, hq, ?_⟩, hq0⟩
      rw [if_neg (by rw [hq0]; exact hg)]
    · exact ⟨q, List.mem_append_left _ hq, hq0⟩

theorem exists_key_dinsert_self {β : Type} (l : List (Nat × β)) (g : Nat)
    (v : β) : ∃ q ∈ dinsert l g v, q.1 = g :=
  ⟨(g, v), dlookup_mem _ _ _ (dlookup_dinsert_self l g v), rfl⟩

theorem mem_foldl_dinsert (g : Nat) (cs : List Cand)
    (l : List ((String × Nat) × Nat)) (p : (String × Nat) × Nat)
    (h : p ∈ cs.foldl (fun m c => dinsert m c.key g) l) :
    p.2 = g ∨ p ∈ l := by
  induction cs generalizing l with
  | nil => exact Or.inr h
  | cons c cs ih =>
    rcases ih (dinsert l c.key g) h with h' | h'
    · exact Or.inl h'
    · rcases mem_dinsert _ _ _ _ h' with h'' | h''
      · exact Or.inl (by rw [h''])
      · exact Or.inr h''

theorem fwdInv_cleanup (st : FState) (now : ℚ) (h : FwdInv st) :
    FwdInv (cleanupOldTids st now) := by
  intro kv hkv
  rw [cleanupOldTids] at hkv ⊢
  simp only [List.mem_filter] at hkv
  obtain ⟨hmem, hold⟩ := hkv
  obtain ⟨q, hq, hq1⟩ := h kv hmem
  refine ⟨q, List.mem_filter.mpr ⟨hq, ?_⟩, hq1⟩
  by_contra hstale
  simp only [Bool.not_eq_true] at hstale
  have hq_old : q.1 ∈ (st.global_tid_last_seen.filter
      (fun p => decide (st.tid_timeout < now - p.2))).map Prod.fst := by
    refine List.mem_map.mpr ⟨q, List.mem_filter.mpr ⟨hq, ?_⟩, rfl⟩
    simpa using hstale
  rw [hq1] at hq_old
  simp only [decide_eq_true_eq] at hold
  exact hold hq_old

theorem fwdInv_assign (st : FState) (now : ℚ) (c : Cand) (h : FwdInv st) :
    FwdInv (assignGlobalTid st now c).1 := by
  rw [assignGlobalTid]
  cases hl : dlookup st.radar_to_global_tid c.key with
  | some g =>
    intro kv hkv
    exact exists_key_dinsert _ _ _ _ (h kv hkv)
  | none =>
    intro kv hkv
    rcases mem_dinsert _ _ _ _ hkv with h' | h'
    · rw [h']
      exact exists_key_dinsert_self _ _ _
    · exact exists_key_dinsert _ _ _ _ (h kv h')

theorem fwdInv_assignMulti (st : FState) (now : ℚ) (cs : List Cand)
    (f : FusedTrack) (h : FwdInv st) :
    FwdInv (assignGlobalTidMulti st now cs f).1 := by
  rw [assignGlobalTidMulti]
  intro kv hkv
  simp only at hkv ⊢
  rcases mem_foldl_dinsert _ _ _ _ hkv with h' | h'
  · rw [h']
    exact exists_key_dinsert_self _ _ _
  · exact exists_key_dinsert _ _ _ _ (h kv h')

theorem fwdInv_merge (st : FState) (now : ℚ) (cs : List Cand)
    (h : FwdInv st) : FwdInv (mergeMultipleTracks st now cs).1 := by
  rcases cs with _ | ⟨c, _ | ⟨c', cs⟩⟩
  · exact fwdInv_assignMulti _ _ _ _ h
  · exact fwdInv_assign _ _ _ h
  · exact fwdInv_assignMulti _ _ _ _ h

theorem processCluster_nil (st : FState) (now : ℚ) :
    processCluster st now [] = (st, default) := by
  simp only [processCluster, List.length_nil]
  rw [if_neg (by omega)]

theorem processCluster_single (st : FState) (now : ℚ) (c : Cand) :
    processCluster st now [c] = assignGlobalTid st now c := by
  simp only [processCluster, List.length_cons, List.length_nil]
  rw [if_neg (by omega)]

theorem processCluster_multi (st : FState) (now : ℚ) (c c' : Cand)
    (cs : List Cand) :
    processCluster st now (c :: c' :: cs)
      = mergeMultipleTracks st now (c :: c' :: cs) := by
  simp only [processCluster, List.length_cons]
  rw [if_pos (by omega)]

theorem fwdInv_processCluster (st : FState) (now : ℚ) (cl : List Cand)
    (h : FwdInv st) : FwdInv (processCluster st now cl).1 := by
  rcases cl with _ | ⟨c, _ | ⟨c', cs⟩⟩
  · rw [processCluster_nil]; exact h
  · rw [processCluster_single]; exact fwdInv_assign _ _ _ h
  · rw [processCluster_multi]; exact fwdInv_merge _ _ _ h

theorem fwdInv_processClusters (now : ℚ) (clusters : List (List Cand)) :
    ∀ st : FState, FwdInv st → FwdInv (processClusters now st clusters).1 := by
  induction clusters with
  | nil => intro st h; exact h
  | cons cl rest ih =>
    intro st h
    rw [processClusters]
    exact ih _ (fwdInv_processCluster _ _ _ h)

/-- C3 amended: the forward inclusion of the invariant holds after
initialization and is preserved by every `fuse_tracks` call — every
global id occurring as a value of `radar_to_global_tid` has a last-seen
entry.  (The converse inclusion is refuted by
`identity_table_counterexample`: a merge can strand a last-seen entry
with no forward key until the timeout purges it.) -/
theorem identity_table_forward_invariant (thr : ℚ) :
    FwdInv (FState.init thr) ∧
    ∀ (st : FState) (now : ℚ) (frames : List Frame),
      FwdInv st → FwdInv (fuseTracks st now frames).1 := by
  constructor
  · intro kv hkv; simp [FState.init] at hkv
  · intro st now frames h
    simp only [fuseTracks]
    split
    · exact h
    · split
      · exact fwdInv_cleanup _ _ h
      · exact fwdInv_processClusters _ _ _ (fwdInv_cleanup _ _ h)

/-- Witness for the amended C3 at a concrete state and call. -/
theorem identity_table_forward_invariant_witness :
    FwdInv (fuseTracks (FState.init 1) 0 cexFrames1).1 :=
  (identity_table_forward_invariant 1).2 (FState.init 1) 0 cexFrames1
    (identity_table_forward_invariant 1).1

/-! ### Merged-cluster identity assignment (C4) -/

theorem listMinNat_cons (x z : Nat) (zs : List Nat) :
    listMinNat x (z :: zs) = listMinNat (min x z) zs := rfl

theorem listMinNat_le (xs : List Nat) :
    ∀ x : Nat, ∀ y ∈ x :: xs, listMinNat x xs ≤ y := by
  induction xs with
  | nil =>
    intro x y hy
    simp at hy
    simp [listMinNat, hy]
  | cons z zs ih =>
    intro x y hy
    rw [listMinNat_cons]
    rcases List.mem_cons.mp hy with hxy | hy'
    · rw [hxy]
      exact le_trans (ih (min x z) (min x z) (List.mem_cons_self _ _))
        (min_le_left _ _)
    · rcases List.mem_cons.mp hy' with hyz | hy''
      · rw [hyz]
        exact le_trans (ih (min x z) (min x z) (List.mem_cons_self _ _))
          (min_le_right _ _)
      · exact ih (min x z) y (List.mem_cons_of_mem _ hy'')

theorem listMinNat_mem (xs : List Nat) :
    ∀ x : Nat, listMinNat x xs ∈ x :: xs := by
  induction xs with
  | nil => intro x; simp [listMinNat]
  | cons z zs ih =>
    intro x
    rw [listMinNat_cons]
    rcases List.mem_cons.mp (ih (min x z)) with he | hm
    · rw [he]
      rcases min_choice x z with h' | h' <;> simp [h']
    · simp [List.mem_cons_of_mem, hm]

theorem dlookup_foldl_dinsert (g : Nat) (cs : List Cand)
    (l : List ((String × Nat) × Nat)) (k : String × Nat) :
    dlookup (cs.foldl (fun m c => dinsert m c.key g) l) k
      = if ∃ c ∈ cs, c.key = k then some g else dlookup l k := by
  induction cs generalizing l with
  | nil => simp
  | cons c cs ih =>
    rw [List.foldl_cons, ih]
    by_cases hk : ∃ c' ∈ cs, c'.key = k
    · rw [if_pos hk]
      rw [if_pos (show ∃ c_1 ∈ c :: cs, c_1.key = k from by
        obtain ⟨c', h1, h2⟩ := hk
        exact ⟨c', List.mem_cons_of_mem _ h1, h2⟩)]
    · rw [if_neg hk]
      by_cases hck : c.key = k
      · rw [if_pos (show ∃ c_1 ∈ c :: cs, c_1.key = k from
          ⟨c, List.mem_cons_self _ _, hck⟩), ← hck, dlookup_dinsert_self]
      · rw [if_neg (show ¬ ∃ c_1 ∈ c :: cs, c_1.key = k from by
          rintro ⟨c', hc', hkey⟩
          rcases List.mem_cons.mp hc' with rfl | hmem
          · exact hck hkey
          · exact hk ⟨c', hmem, hkey⟩),
          dlookup_dinsert_ne l c.key k g (fun h => hck h.symm)]

/-- C4: Merged-cluster identity assignment.  For a cluster of two or
more tracks: if some member key is already mapped, the fused track gets
the smallest mapped id and the counter is unchanged; otherwise it gets
the current counter value and the counter is incremented.  In both cases
every member key is re-pointed to the chosen id and that id's last-seen
time is refreshed. -/
theorem merged_cluster_identity (st : FState) (now : ℚ) (cs : List Cand)
    (f : FusedTrack) (_hlen : 2 ≤ cs.length) :
    ((cs.filterMap (fun c => dlookup st.radar_to_global_tid c.key)) ≠ [] →
      (assignGlobalTidMulti st now cs f).2.global_tid
          ∈ cs.filterMap (fun c => dlookup st.radar_to_global_tid c.key) ∧
      (∀ g ∈ cs.filterMap (fun c => dlookup st.radar_to_global_tid c.key),
        (assignGlobalTidMulti st now cs f).2.global_tid ≤ g) ∧
      (assignGlobalTidMulti st now cs f).1.next_global_tid
        = st.next_global_tid) ∧
    ((cs.filterMap (fun c => dlookup st.radar_to_global_tid c.key)) = [] →
      (assignGlobalTidMulti st now cs f).2.global_tid = st.next_global_tid ∧
      (assignGlobalTidMulti st now cs f).1.next_global_tid
        = st.next_global_tid + 1) ∧
    (∀ c ∈ cs,
      dlookup (assignGlobalTidMulti st now cs f).1.radar_to_global_tid c.key
        = some (assignGlobalTidMulti st now cs f).2.global_tid) ∧
    dlookup (assignGlobalTidMulti st now cs f).1.global_tid_last_seen
      (assignGlobalTidMulti st now cs f).2.global_tid = some now := by
  cases hex : cs.filterMap (fun c => dlookup st.radar_to_global_tid c.key) with
  | nil =>
    refine ⟨fun h => absurd rfl h, fun _ => ?_, ?_, ?_⟩
    · constructor <;> simp [assignGlobalTidMulti, hex]
    · intro c hc
      simp only [assignGlobalTidMulti, hex]
      rw [dlookup_foldl_dinsert, if_pos ⟨c, hc, rfl⟩]
    · simp only [assignGlobalTidMulti, hex]
      exact dlookup_dinsert_self _ _ _
  | cons e es =>
    refine ⟨fun _ => ⟨?_, ?_, ?_⟩, fun h => ?_, ?_, ?_⟩
    · simp only [assignGlobalTidMulti, hex]
      exact listMinNat_mem es e
    · intro g hg
      simp only [assignGlobalTidMulti, hex]
      exact listMinNat_le es e g hg
    · simp [assignGlobalTidMulti, hex]
    · exact absurd h (by simp)
    · intro c hc
      simp only [assignGlobalTidMulti, hex]
      rw [dlookup_foldl_dinsert, if_pos ⟨c, hc, rfl⟩]
    · simp only [assignGlobalTidMulti, hex]
      exact dlookup_dinsert_self _ _ _

def c4CandA : Cand := ⟨1, ⟨0, 0, 0⟩, ⟨0, 0, 0⟩, ⟨0, 0, 0⟩, 1, "A", 0⟩

def c4CandB : Cand := ⟨2, ⟨0, 0, 0⟩, ⟨0, 0, 0⟩, ⟨0, 0, 0⟩, 1, "B", 0⟩

def c4St : FState := ⟨1, 6, [(("A", 1), 5)], [(5, 0)], 2⟩

/-- Witness for C4: a two-member cluster, one member already mapped to
global id 5. -/
theorem merged_cluster_identity_witness :
    2 ≤ ([c4CandA, c4CandB] : List Cand).length ∧
    ((([c4CandA, c4CandB].filterMap
        (fun c => dlookup c4St.radar_to_global_tid c.key)) ≠ [] →
      (assignGlobalTidMulti c4St 0 [c4CandA, c4CandB] default).2.global_tid
          ∈ [c4CandA, c4CandB].filterMap
            (fun c => dlookup c4St.radar_to_global_tid c.key) ∧
      (∀ g ∈ [c4CandA, c4CandB].filterMap
          (fun c => dlookup c4St.radar_to_global_tid c.key),
        (assignGlobalTidMulti c4St 0 [c4CandA, c4CandB] default).2.global_tid
          ≤ g) ∧
      (assignGlobalTidMulti c4St 0 [c4CandA,
        c4CandB] default).1.next_global_tid = c4St.next_global_tid) ∧
    (([c4CandA, c4CandB].filterMap
        (fun c => dlookup c4St.radar_to_global_tid c.key)) = [] →
      (assignGlobalTidMulti c4St 0 [c4CandA, c4CandB] default).2.global_tid
        = c4St.next_global_tid ∧
      (assignGlobalTidMulti c4St 0 [c4CandA,
        c4CandB] default).1.next_global_tid = c4St.next_global_tid + 1) ∧
    (∀ c ∈ ([c4CandA, c4CandB] : List Cand),
      dlookup (assignGlobalTidMulti c4St 0 [c4CandA,
        c4CandB] default).1.radar_to_global_tid c.key
        = some (assignGlobalTidMulti c4St 0 [c4CandA,
          c4CandB] default).2.global_tid) ∧
    dlookup (assignGlobalTidMulti c4St 0 [c4CandA,
      c4CandB] default).1.global_tid_last_seen
      (assignGlobalTidMulti c4St 0 [c4CandA, c4CandB] default).2.global_tid
      = some 0) :=
  ⟨by decide, merged_cluster_identity c4St 0 [c4CandA, c4CandB] default
    (by decide)⟩

/-! ### Merged-cluster value computation (C5) -/

theorem sum_map_div (l : List ℚ) (s : ℚ) :
    (l.map (· / s)).sum = l.sum / s := by
  induction l with
  | nil => simp
  | cons a l ih => simp [ih, add_div]

theorem zipWith_mul_map {α : Type} (f g : α → ℚ) (l : List α) :
    List.zipWith (· * ·) (l.map f) (l.map g) = l.map (fun a => f a * g a) := by
  induction l with
  | nil => rfl
  | cons a l ih => simp [ih]

theorem listMaxQ_cons (x z : ℚ) (zs : List ℚ) :
    listMaxQ x (z :: zs) = listMaxQ (max x z) zs := rfl

theorem listMaxQ_ge (xs : List ℚ) :
    ∀ x : ℚ, ∀ y ∈ x :: xs, y ≤ listMaxQ x xs := by
  induction xs with
  | nil =>
    intro x y hy
    simp at hy
    simp [listMaxQ, hy]
  | cons z zs ih =>
    intro x y hy
    rw [listMaxQ_cons]
    rcases List.mem_cons.mp hy with hxy | hy'
    · rw [hxy]
      exact le_trans (le_max_left x z)
        (ih (max x z) (max x z) (List.mem_cons_self _ _))
    · rcases List.mem_cons.mp hy' with hyz | hy''
      · rw [hyz]
        exact le_trans (le_max_right x z)
          (ih (max x z) (max x z) (List.mem_cons_self _ _))
      · exact ih (max x z) y (List.mem_cons_of_mem _ hy'')

theorem listMaxQ_mem (xs : List ℚ) :
    ∀ x : ℚ, listMaxQ x xs ∈ x :: xs := by
  induction xs with
  | nil => intro x; simp [listMaxQ]
  | cons z zs ih =>
    intro x
    rw [listMaxQ_cons]
    rcases List.mem_cons.mp (ih (max x z)) with he | hm
    · rw [he]
      rcases max_choice x z with h' | h' <;> simp [h']
    · simp [List.mem_cons_of_mem, hm]

/-- `np.average` with the source's confidence-normalized weights equals
the claim's weighted mean `Σ (confᵢ/Σconf)·vᵢ`. -/
theorem npAverage_normalized (cs : List Cand) (v : Cand → ℚ)
    (hS : (cs.map (·.conf)).sum ≠ 0) :
    npAverage ((cs.map (·.conf)).map (· / (cs.map (·.conf)).sum)) (cs.map v)
      = (cs.map (fun c => c.conf / (cs.map (·.conf)).sum * v c)).sum := by
  rw [npAverage, sum_map_div, div_self hS, List.map_map]
  rw [show ((fun x => x / (cs.map (·.conf)).sum) ∘ fun c : Cand => c.conf)
    = fun c : Cand => c.conf / (cs.map (·.conf)).sum from rfl]
  rw [zipWith_mul_map, div_one]

/-- C5: Merged-cluster value computation.  For a cluster of two or more
tracks with nonzero total confidence: fused position, velocity and
acceleration are the per-axis weighted means with weights
`confᵢ/Σconf`; fused confidence is the maximum member confidence;
`source_radars`/`source_tids` list every member; the timestamp is the
mean of member timestamps. -/
theorem merged_cluster_values (st : FState) (now : ℚ) (cs : List Cand)
    (hlen : 2 ≤ cs.length) (hS : (cs.map (·.conf)).sum ≠ 0) :
    ((mergeMultipleTracks st now cs).2.pos.x
      = (cs.map (fun c => c.conf / (cs.map (·.conf)).sum * c.pos.x)).sum ∧
     (mergeMultipleTracks st now cs).2.pos.y
      = (cs.map (fun c => c.conf / (cs.map (·.conf)).sum * c.pos.y)).sum ∧
     (mergeMultipleTracks st now cs).2.pos.z
      = (cs.map (fun c => c.conf / (cs.map (·.conf)).sum * c.pos.z)).sum) ∧
    ((mergeMultipleTracks st now cs).2.vel.x
      = (cs.map (fun c => c.conf / (cs.map (·.conf)).sum * c.vel.x)).sum ∧
     (mergeMultipleTracks st now cs).2.vel.y
      = (cs.map (fun c => c.conf / (cs.map (·.conf)).sum * c.vel.y)).sum ∧
     (mergeMultipleTracks st now cs).2.vel.z
      = (cs.map (fun c => c.conf / (cs.map (·.conf)).sum * c.vel.z)).sum) ∧
    ((mergeMultipleTracks st now cs).2.acc.x
      = (cs.map (fun c => c.conf / (cs.map (·.conf)).sum * c.acc.x)).sum ∧
     (mergeMultipleTracks st now cs).2.acc.y
      = (cs.map (fun c => c.conf / (cs.map (·.conf)).sum * c.acc.y)).sum ∧
     (mergeMultipleTracks st now cs).2.acc.z
      = (cs.map (fun c => c.conf / (cs.map (·.conf)).sum * c.acc.z)).sum) ∧
    ((∀ c ∈ cs, c.conf ≤ (mergeMultipleTracks st now cs).2.conf) ∧
     (mergeMultipleTracks st now cs).2.conf ∈ cs.map (·.conf)) ∧
    (mergeMultipleTracks st now cs).2.num_radars_detected = cs.length ∧
    (mergeMultipleTracks st now cs).2.source_radars
      = cs.map (·.radar_name) ∧
    (mergeMultipleTracks st now cs).2.source_tids = cs.map Cand.key ∧
    (mergeMultipleTracks st now cs).2.timestamp
      = (cs.map (·.timestamp)).sum / (cs.length : ℚ) := by
  rcases cs with _ | ⟨a, _ | ⟨b, rest⟩⟩
  · simp at hlen
  · simp at hlen
  · refine ⟨⟨?_, ?_, ?_⟩, ⟨?_, ?_, ?_⟩, ⟨?_, ?_, ?_⟩, ⟨?_, ?_⟩, ?_, ?_, ?_,
      ?_⟩
    · simp only [mergeMultipleTracks, assignGlobalTidMulti]
      exact npAverage_normalized (a :: b :: rest) (fun c => c.pos.x) hS
    · simp only [mergeMultipleTracks, assignGlobalTidMulti]
      exact npAverage_normalized (a :: b :: rest) (fun c => c.pos.y) hS
    · simp only [mergeMultipleTracks, assignGlobalTidMulti]
      exact npAverage_normalized (a :: b :: rest) (fun c => c.pos.z) hS
    · simp only [mergeMultipleTracks, assignGlobalTidMulti]
      exact npAverage_normalized (a :: b :: rest) (fun c => c.vel.x) hS
    · simp only [mergeMultipleTracks, assignGlobalTidMulti]
      exact npAverage_normalized (a :: b :: rest) (fun c => c.vel.y) hS
    · simp only [mergeMultipleTracks, assignGlobalTidMulti]
      exact npAverage_normalized (a :: b :: rest) (fun c => c.vel.z) hS
    · simp only [mergeMultipleTracks, assignGlobalTidMulti]
      exact npAverage_normalized (a :: b :: rest) (fun c => c.acc.x) hS
    · simp only [mergeMultipleTracks, assignGlobalTidMulti]
      exact npAverage_normalized (a :: b :: rest) (fun c => c.acc.y) hS
    · simp only [mergeMultipleTracks, assignGlobalTidMulti]
      exact npAverage_normalized (a :: b :: rest) (fun c => c.acc.z) hS
    · intro c hc
      simp only [mergeMultipleTracks, assignGlobalTidMulti]
      exact listMaxQ_ge _ _ c.conf (by
        simpa using List.mem_map_of_mem (fun c : Cand => c.conf) hc)
    · simp only [mergeMultipleTracks, assignGlobalTidMulti]
      simpa using listMaxQ_mem ((b :: rest).map (·.conf)) a.conf
    · simp [mergeMultipleTracks, assignGlobalTidMulti]
    · simp [mergeMultipleTracks, assignGlobalTidMulti]
    · simp [mergeMultipleTracks, assignGlobalTidMulti]
    · simp [mergeMultipleTracks, assignGlobalTidMulti]


def c5A : Cand := ⟨1, ⟨1, 2, 3⟩, ⟨4, 5, 6⟩, ⟨7, 8, 9⟩, 1, "A", 0⟩

def c5B : Cand := ⟨2, ⟨2, 3, 4⟩, ⟨5, 6, 7⟩, ⟨8, 9, 10⟩, 1, "B", 2⟩

/-- Witness for C5 at a concrete two-member cluster. -/
theorem merged_cluster_values_witness :
    2 ≤ ([c5A, c5B] : List Cand).length ∧
    ([c5A, c5B].map (·.conf)).sum ≠ 0 ∧
    (
    ((mergeMultipleTracks (FState.init 1) 0 [c5A, c5B]).2.pos.x
      = ([c5A, c5B].map (fun c => c.conf / ([c5A, c5B].map (·.conf)).sum * c.pos.x)).sum ∧
     (mergeMultipleTracks (FState.init 1) 0 [c5A, c5B]).2.pos.y
      = ([c5A, c5B].map (fun c => c.conf / ([c5A, c5B].map (·.conf)).sum * c.pos.y)).sum ∧
     (mergeMultipleTracks (FState.init 1) 0 [c5A, c5B]).2.pos.z
      = ([c5A, c5B].map (fun c => c.conf / ([c5A, c5B].map (·.conf)).sum * c.pos.z)).sum) ∧
    ((mergeMultipleTracks (FState.init 1) 0 [c5A, c5B]).2.vel.x
      = ([c5A, c5B].map (fun c => c.conf / ([c5A, c5B].map (·.conf)).sum * c.vel.x)).sum ∧
     (mergeMultipleTracks (FState.init 1) 0 [c5A, c5B]).2.vel.y
      = ([c5A, c5B].map (fun c => c.conf / ([c5A, c5B].map (·.conf)).sum * c.vel.y)).sum ∧
     (mergeMultipleTracks (FState.init 1) 0 [c5A, c5B]).2.vel.z
      = ([c5A, c5B].map (fun c => c.conf / ([c5A, c5B].map (·.conf)).sum * c.vel.z)).sum) ∧
    ((mergeMultipleTracks (FState.init 1) 0 [c5A, c5B]).2.acc.x
      = ([c5A, c5B].map (fun c => c.conf / ([c5A, c5B].map (·.conf)).sum * c.acc.x)).sum ∧
     (mergeMultipleTracks (FState.init 1) 0 [c5A, c5B]).2.acc.y
      = ([c5A, c5B].map (fun c => c.conf / ([c5A, c5B].map (·.conf)).sum * c.acc.y)).sum ∧
     (mergeMultipleTracks (FState.init 1) 0 [c5A, c5B]).2.acc.z
      = ([c5A, c5B].map (fun c => c.conf / ([c5A, c5B].map (·.conf)).sum * c.acc.z)).sum) ∧
    ((∀ c ∈ ([c5A, c5B] : List Cand), c.conf ≤ (mergeMultipleTracks (FState.init 1) 0 [c5A, c5B]).2.conf) ∧
     (mergeMultipleTracks (FState.init 1) 0 [c5A, c5B]).2.conf ∈ [c5A, c5B].map (·.conf)) ∧
    (mergeMultipleTracks (FState.init 1) 0 [c5A, c5B]).2.num_radars_detected = ([c5A, c5B] : List Cand).length ∧
    (mergeMultipleTracks (FState.init 1) 0 [c5A, c5B]).2.source_radars
      = [c5A, c5B].map (·.radar_name) ∧
    (mergeMultipleTracks (FState.init 1) 0 [c5A, c5B]).2.source_tids = [c5A, c5B].map Cand.key ∧
    (mergeMultipleTracks (FState.init 1) 0 [c5A, c5B]).2.timestamp
      = ([c5A, c5B].map (·.timestamp)).sum / (([c5A, c5B] : List Cand).length : ℚ)) :=
  ⟨by decide, by norm_num [c5A, c5B], merged_cluster_values (FState.init 1) 0
    [c5A, c5B] (by decide) (by norm_num [c5A, c5B])⟩


/-! ### Clustering is a partition (C6) -/

theorem closeIdxs_nodup (ps : List Vec3) (thr : ℚ) (i : Nat) :
    (closeIdxs ps thr i).Nodup :=
  (List.nodup_range _).filter _

theorem mem_closeIdxs (ps : List Vec3) (thr : ℚ) (i j : Nat) :
    j ∈ closeIdxs ps thr i ↔ j < ps.length ∧
      closeB (ps.getD i ⟨0, 0, 0⟩) (ps.getD j ⟨0, 0, 0⟩) thr = true := by
  simp [closeIdxs, List.mem_filter, List.mem_range]

theorem closeB_pos_thr (p q : Vec3) (thr : ℚ) (h : closeB p q thr = true) :
    0 < thr := by
  simp [closeB] at h
  exact h.1

theorem closeB_self (p : Vec3) (thr : ℚ) (h : 0 < thr) :
    closeB p p thr = true := by
  simp only [closeB, dist2, sub_self, Bool.and_eq_true, decide_eq_true_eq]
  constructor
  · exact h
  · simpa using mul_pos h h

theorem count_nodup (l : List Nat) (hn : l.Nodup) (j : Nat) :
    l.count j = if j ∈ l then 1 else 0 := by
  split
  next h => exact List.count_eq_one_of_mem hn h
  next h => exact List.count_eq_zero_of_not_mem h

theorem mem_ct_iff (ps : List Vec3) (thr : ℚ) (i : Nat)
    (merged : List Nat) (j : Nat) :
    j ∈ (closeIdxs ps thr i).filter (fun j => decide (j ∉ merged)) ↔
      j ∈ closeIdxs ps thr i ∧ j ∉ merged := by
  simp [List.mem_filter]

/-- Every cluster produced by the greedy loop is nonempty. -/
theorem greedyGo_ne_nil (ps : List Vec3) (thr : ℚ) :
    ∀ (todo merged : List Nat),
    ∀ cl ∈ greedyGo ps thr todo merged, cl ≠ [] := by
  intro todo
  induction todo with
  | nil => intro merged cl hcl; simp [greedyGo] at hcl
  | cons i todo ih =>
    intro merged cl hcl
    simp only [greedyGo] at hcl
    by_cases him : i ∈ merged
    · rw [if_pos him] at hcl
      exact ih merged cl hcl
    · rw [if_neg him] at hcl
      split at hcl
      next hlen =>
        rcases List.mem_cons.mp hcl with he | hm
        · intro hnil
          rw [← he, hnil] at hlen
          simp at hlen
        · exact ih _ cl hm
      next =>
        rcases List.mem_cons.mp hcl with he | hm
        · rw [he]; simp
        · exact ih _ cl hm

/-- The greedy clustering loop partitions the unclaimed in-range
indices: every such index lands in exactly one cluster. -/
theorem greedyGo_count (ps : List Vec3) (thr : ℚ) :
    ∀ (todo merged : List Nat),
    (∀ j, j < ps.length → j ∉ merged → j ∈ todo) →
    (∀ j ∈ todo, j < ps.length) →
    ∀ j, ((greedyGo ps thr todo merged).flatten).count j
      = if j < ps.length ∧ j ∉ merged then 1 else 0 := by
  intro todo
  induction todo with
  | nil =>
    intro merged hcov _ j
    simp only [greedyGo, List.flatten_nil, List.count_nil]
    rw [if_neg]
    rintro ⟨hj, hnm⟩
    exact absurd (hcov j hj hnm) (List.not_mem_nil j)
  | cons i todo ih =>
    intro merged hcov htodo j
    have hin : i < ps.length := htodo i (List.mem_cons_self _ _)
    simp only [greedyGo]
    by_cases him : i ∈ merged
    · rw [if_pos him]
      rw [ih merged (fun j hj hnm => by
          rcases List.mem_cons.mp (hcov j hj hnm) with he | hm
          · exact absurd (he ▸ him) hnm
          · exact hm)
        (fun j hj => htodo j (List.mem_cons_of_mem _ hj)) j]
    · rw [if_neg him]
      by_cases hlen : 1 <
          ((closeIdxs ps thr i).filter (fun j => decide (j ∉ merged))).length
      · rw [if_pos hlen]
        have hict : i ∈ closeIdxs ps thr i := by
          have hne : ((closeIdxs ps thr i).filter
              (fun j => decide (j ∉ merged))) ≠ [] :=
            List.length_pos.mp (by omega)
          obtain ⟨j0, hj0⟩ := List.exists_mem_of_ne_nil _ hne
          have hj0c := ((mem_ct_iff ps thr i merged j0).mp hj0).1
          have hthr := closeB_pos_thr _ _ _
            ((mem_closeIdxs ps thr i j0).mp hj0c).2
          exact (mem_closeIdxs ps thr i i).mpr ⟨hin, closeB_self _ _ hthr⟩
        rw [List.flatten_cons, List.count_append]
        rw [ih (merged ++ closeIdxs ps thr i)
          (fun j hj hnm => by
            have hnm' : j ∉ merged := fun hh =>
              hnm (List.mem_append_left _ hh)
            have hnc : j ∉ closeIdxs ps thr i := fun hh =>
              hnm (List.mem_append_right _ hh)
            rcases List.mem_cons.mp (hcov j hj hnm') with he | hm
            · exact absurd (he ▸ hict) hnc
            · exact hm)
          (fun j hj => htodo j (List.mem_cons_of_mem _ hj)) j]
        rw [count_nodup _ ((closeIdxs_nodup ps thr i).filter _) j]
        by_cases hjc : j ∈ closeIdxs ps thr i
        · have hjn : j < ps.length := ((mem_closeIdxs ps thr i j).mp hjc).1
          by_cases hjm : j ∈ merged
          · rw [if_neg (fun hh =>
              ((mem_ct_iff ps thr i merged j).mp hh).2 hjm)]
            rw [if_neg (by
              rintro ⟨_, hnm⟩
              exact hnm (List.mem_append_left _ hjm))]
            rw [if_neg (by
              rintro ⟨_, hnm⟩
              exact hnm hjm)]
          · rw [if_pos ((mem_ct_iff ps thr i merged j).mpr ⟨hjc, hjm⟩)]
            rw [if_neg (by
              rintro ⟨_, hnm⟩
              exact hnm (List.mem_append_right _ hjc))]
            rw [if_pos ⟨hjn, hjm⟩]
        · rw [if_neg (fun hh =>
            hjc ((mem_ct_iff ps thr i merged j).mp hh).1)]
          by_cases hfin : j < ps.length ∧ j ∉ merged
          · rw [if_pos ⟨hfin.1, fun hh => (List.mem_append.mp hh).elim
              (fun h1 => hfin.2 h1) (fun h2 => hjc h2)⟩, if_pos hfin]
          · rw [if_neg (by
              rintro ⟨h1, h2⟩
              exact hfin ⟨h1, fun hm => h2 (List.mem_append_left _ hm)⟩),
              if_neg hfin]
      · rw [if_neg hlen]
        rw [List.flatten_cons, List.count_append]
        rw [ih (merged ++ [i])
          (fun j hj hnm => by
            have hnm' : j ∉ merged := fun hh =>
              hnm (List.mem_append_left _ hh)
            have hnc : j ≠ i := fun hh =>
              hnm (List.mem_append_right _ (by simp [hh]))
            rcases List.mem_cons.mp (hcov j hj hnm') with he | hm
            · exact absurd he hnc
            · exact hm)
          (fun j hj => htodo j (List.mem_cons_of_mem _ hj)) j]
        rw [count_nodup [i] (List.nodup_singleton i) j]
        by_cases hji : j = i
        · subst hji
          rw [if_pos (by simp)]
          rw [if_neg (by
            rintro ⟨_, hnm⟩
            exact hnm (List.mem_append_right _ (List.mem_cons_self _ _)))]
          rw [if_pos ⟨hin, him⟩]
        · rw [if_neg (by simp [hji])]
          by_cases hfin : j < ps.length ∧ j ∉ merged
          · rw [if_pos ⟨hfin.1, fun hh => (List.mem_append.mp hh).elim
              (fun h1 => hfin.2 h1) (fun h2 => hji (by simpa using h2))⟩,
              if_pos hfin]
          · rw [if_neg (by
              rintro ⟨h1, h2⟩
              exact hfin ⟨h1, fun hm => h2 (List.mem_append_left _ hm)⟩),
              if_neg hfin]


theorem processClusters_length (now : ℚ) :
    ∀ (st : FState) (cls : List (List Cand)),
    (processClusters now st cls).2.length = cls.length := by
  intro st cls
  induction cls generalizing st with
  | nil => rfl
  | cons cl rest ih =>
    simp only [processClusters, List.length_cons]
    rw [ih]

/-- C6: Clustering is a partition.  Every cluster formed over a
candidate list is nonempty; every candidate index below the list length
appears in exactly one cluster (an index claimed by an earlier cluster
is never reused); and `fuse_tracks` produces exactly one fused track per
cluster. -/
theorem fuse_clusters_partition (cs : List Cand) (thr : ℚ) :
    (∀ cl ∈ clustersOf cs thr, cl ≠ []) ∧
    (∀ j, ((clustersOf cs thr).flatten).count j
        = if j < cs.length then 1 else 0) ∧
    (∀ (st : FState) (now : ℚ),
      (processClusters now st
        ((clustersOf cs thr).map (clusterCands cs))).2.length
        = (clustersOf cs thr).length) ∧
    (∀ (st : FState) (now : ℚ) (frames : List Frame),
      frames ≠ [] → candsOf frames ≠ [] →
      (fuseTracks st now frames).2.length
        = (clustersOf (candsOf frames)
            (cleanupOldTids st now).distance_threshold).length) := by
  refine ⟨?_, ?_, ?_, ?_⟩
  · exact fun cl hcl => greedyGo_ne_nil _ _ _ _ cl hcl
  · intro j
    have h := greedyGo_count (cs.map (·.pos)) thr
      (List.range (cs.map (·.pos)).length) []
      (fun j hj _ => List.mem_range.mpr hj)
      (fun j hj => List.mem_range.mp hj) j
    simpa [clustersOf, List.length_map] using h
  · intro st now
    rw [processClusters_length now st _, List.length_map]
  · intro st now frames hf hc
    simp only [fuseTracks]
    rw [if_neg (by simpa [List.isEmpty_iff] using hf),
      if_neg (by simpa [List.isEmpty_iff] using hc)]
    rw [processClusters_length now _ _, List.length_map]


/-- Witness for C6's `fuse_tracks` conjunct at a concrete call. -/
theorem fuse_clusters_partition_witness :
    cexFrames1 ≠ [] ∧ candsOf cexFrames1 ≠ [] ∧
    (fuseTracks (FState.init 1) 0 cexFrames1).2.length
      = (clustersOf (candsOf cexFrames1)
          (cleanupOldTids (FState.init 1) 0).distance_threshold).length :=
  ⟨by decide, by decide,
    (fuse_clusters_partition (candsOf cexFrames1) 1).2.2.2
      (FState.init 1) 0 cexFrames1 (by decide) (by decide)⟩


/-! ### Clustering ignores the radar of origin (C9) -/

theorem cleanup_distance_threshold (st : FState) (now : ℚ) :
    (cleanupOldTids st now).distance_threshold = st.distance_threshold := rfl

/-- C9: cluster formation depends only on pairwise distance, never on
the radar of origin: a single radar frame with two tracks within the
threshold of each other fuses to exactly one track with
`num_radars_detected = 2` and the same radar name listed twice. -/
theorem same_radar_merge (st : FState) (now : ℚ) (name : String) (fts : ℚ)
    (t1 t2 : Track)
    (hclose : closeB t1.pos t2.pos st.distance_threshold = true) :
    ((fuseTracks st now [⟨name, fts, [t1, t2]⟩]).2).map
        (fun f => (f.num_radars_detected, f.source_radars))
      = [(2, [name, name])] := by
  have hthr : 0 < st.distance_threshold := closeB_pos_thr _ _ _ hclose
  have hself1 := closeB_self t1.pos st.distance_threshold hthr
  simp [fuseTracks, candsOf, clustersOf, greedyGo, closeIdxs, clusterCands,
    processClusters, processCluster, mergeMultipleTracks,
    assignGlobalTidMulti, cleanup_distance_threshold, List.range_succ,
    hclose, hself1]


/-- Witness for C9: one radar, two coincident tracks, threshold 1. -/
theorem same_radar_merge_witness :
    closeB (⟨0, 0, 0⟩ : Vec3) ⟨0, 0, 0⟩ (FState.init 1).distance_threshold
      = true ∧
    ((fuseTracks (FState.init 1) 0
        [⟨"A", 0, [⟨1, ⟨0, 0, 0⟩, ⟨0, 0, 0⟩, ⟨0, 0, 0⟩, 1⟩,
                   ⟨2, ⟨0, 0, 0⟩, ⟨0, 0, 0⟩, ⟨0, 0, 0⟩, 1⟩]⟩]).2).map
        (fun f => (f.num_radars_detected, f.source_radars))
      = [(2, ["A", "A"])] :=
  ⟨by norm_num [closeB, dist2, FState.init],
   same_radar_merge (FState.init 1) 0 "A" 0
     ⟨1, ⟨0, 0, 0⟩, ⟨0, 0, 0⟩, ⟨0, 0, 0⟩, 1⟩
     ⟨2, ⟨0, 0, 0⟩, ⟨0, 0, 0⟩, ⟨0, 0, 0⟩, 1⟩
     (by norm_num [closeB, dist2, FState.init])⟩


/-! ### Identity stability across cycles (C2)

The claim as frozen is refuted by `identity_stability_counterexample`:
a merge in the second cycle adopts the smallest existing global id, so a
key that held a larger id is reassigned.  The amended claim proved below:
across two consecutive calls within the identity timeout, a key
contributing to both is never given a fresh id and its second-cycle id
never exceeds its first-cycle id, with equality whenever its
second-cycle track is a singleton.  -/

theorem assign_tid_timeout (st : FState) (now : ℚ) (c : Cand) :
    (assignGlobalTid st now c).1.tid_timeout = st.tid_timeout := by
  cases hl : dlookup st.radar_to_global_tid c.key <;>
    simp [assignGlobalTid, hl]

theorem assignMulti_tid_timeout (st : FState) (now : ℚ) (cs : List Cand)
    (f : FusedTrack) :
    (assignGlobalTidMulti st now cs f).1.tid_timeout = st.tid_timeout := rfl

theorem processCluster_tid_timeout (st : FState) (now : ℚ) (cl : List Cand) :
    (processCluster st now cl).1.tid_timeout = st.tid_timeout := by
  rcases cl with _ | ⟨c, _ | ⟨c', cs⟩⟩
  · rw [processCluster_nil]
  · rw [processCluster_single]; exact assign_tid_timeout _ _ _
  · rw [processCluster_multi]
    exact assignMulti_tid_timeout st now (c :: c' :: cs) _

theorem processClusters_tid_timeout (now : ℚ) :
    ∀ (cls : List (List Cand)) (st : FState),
    (processClusters now st cls).1.tid_timeout = st.tid_timeout := by
  intro cls
  induction cls with
  | nil => intro st; rfl
  | cons cl rest ih =>
    intro st
    simp only [processClusters]
    rw [ih, processCluster_tid_timeout]

theorem fuseTracks_tid_timeout (st : FState) (now : ℚ)
    (frames : List Frame) :
    (fuseTracks st now frames).1.tid_timeout = st.tid_timeout := by
  simp only [fuseTracks]
  split
  · rfl
  · split
    · rfl
    · rw [processClusters_tid_timeout]
      rfl

/-- Postconditions of the singleton identity assignment. -/
theorem assign_post (st : FState) (now : ℚ) (c : Cand) :
    (assignGlobalTid st now c).2.source_tids = [c.key] ∧
    (assignGlobalTid st now c).2.num_radars_detected = 1 ∧
    dlookup (assignGlobalTid st now c).1.radar_to_global_tid c.key
      = some (assignGlobalTid st now c).2.global_tid ∧
    (∀ k, k ≠ c.key →
      dlookup (assignGlobalTid st now c).1.radar_to_global_tid k
        = dlookup st.radar_to_global_tid k) ∧
    (∀ g, dlookup st.radar_to_global_tid c.key = some g →
      (assignGlobalTid st now c).2.global_tid = g) ∧
    (assignGlobalTid st now c).1.global_tid_last_seen
      = dinsert st.global_tid_last_seen
        (assignGlobalTid st now c).2.global_tid now := by
  cases hl : dlookup st.radar_to_global_tid c.key with
  | some g =>
    refine ⟨?_, ?_, ?_, ?_, ?_, ?_⟩
    · simp [assignGlobalTid, hl]
    · simp [assignGlobalTid, hl]
    · simp [assignGlobalTid, hl]
    · intro k hk
      simp [assignGlobalTid, hl]
    · intro g' hg'
      injection hg' with h
      rw [← h]
      simp [assignGlobalTid, hl]
    · simp [assignGlobalTid, hl]
  | none =>
    refine ⟨?_, ?_, ?_, ?_, ?_, ?_⟩
    · simp [assignGlobalTid, hl]
    · simp [assignGlobalTid, hl]
    · simp only [assignGlobalTid, hl]
      exact dlookup_dinsert_self _ _ _
    · intro k hk
      simp only [assignGlobalTid, hl]
      exact dlookup_dinsert_ne _ _ _ _ hk
    · intro g' hg'
      cases hg'
    · simp [assignGlobalTid, hl]

/-- Postconditions of the multi-member identity assignment. -/
theorem assignMulti_post (st : FState) (now : ℚ) (cs : List Cand)
    (f : FusedTrack) :
    (assignGlobalTidMulti st now cs f).2.source_tids = f.source_tids ∧
    (assignGlobalTidMulti st now cs f).2.num_radars_detected
      = f.num_radars_detected ∧
    (∀ c ∈ cs,
      dlookup (assignGlobalTidMulti st now cs f).1.radar_to_global_tid c.key
        = some (assignGlobalTidMulti st now cs f).2.global_tid) ∧
    (∀ k, (∀ c ∈ cs, c.key ≠ k) →
      dlookup (assignGlobalTidMulti st now cs f).1.radar_to_global_tid k
        = dlookup st.radar_to_global_tid k) ∧
    (∀ (g : Nat) (c : Cand), c ∈ cs →
      dlookup st.radar_to_global_tid c.key = some g →
      (assignGlobalTidMulti st now cs f).2.global_tid ≤ g) ∧
    (assignGlobalTidMulti st now cs f).1.global_tid_last_seen
      = dinsert st.global_tid_last_seen
        (assignGlobalTidMulti st now cs f).2.global_tid now := by
  refine ⟨rfl, rfl, ?_, ?_, ?_, rfl⟩
  · intro c hc
    simp only [assignGlobalTidMulti]
    rw [dlookup_foldl_dinsert, if_pos ⟨c, hc, rfl⟩]
  · intro k hk
    simp only [assignGlobalTidMulti]
    rw [dlookup_foldl_dinsert, if_neg (by
      rintro ⟨c, hc, he⟩
      exact hk c hc he)]
  · intro g c hc hg
    have hmem : g ∈ cs.filterMap
        (fun c => dlookup st.radar_to_global_tid c.key) :=
      List.mem_filterMap.mpr ⟨c, hc, hg⟩
    cases hex : cs.filterMap
        (fun c => dlookup st.radar_to_global_tid c.key) with
    | nil => rw [hex] at hmem; simp at hmem
    | cons e es =>
      simp only [assignGlobalTidMulti, hex]
      rw [hex] at hmem
      exact listMinNat_le es e g hmem


theorem merge_source_tids (st : FState) (now : ℚ) (c cp : Cand)
    (cs : List Cand) :
    (mergeMultipleTracks st now (c :: cp :: cs)).2.source_tids
      = (c :: cp :: cs).map Cand.key := by
  simp [mergeMultipleTracks, assignGlobalTidMulti]

theorem merge_num_radars (st : FState) (now : ℚ) (c cp : Cand)
    (cs : List Cand) :
    (mergeMultipleTracks st now (c :: cp :: cs)).2.num_radars_detected
      = (c :: cp :: cs).length := by
  simp [mergeMultipleTracks, assignGlobalTidMulti]

/-- Keys not in a cluster keep their mapping across its processing. -/
theorem processCluster_untouched (st : FState) (now : ℚ) (cl : List Cand)
    (key : String × Nat) (hk : ∀ c ∈ cl, c.key ≠ key) :
    dlookup (processCluster st now cl).1.radar_to_global_tid key
      = dlookup st.radar_to_global_tid key := by
  rcases cl with _ | ⟨c, _ | ⟨cp, cs⟩⟩
  · rw [processCluster_nil]
  · rw [processCluster_single]
    exact (assign_post st now c).2.2.2.1 key
      (fun he => hk c (List.mem_cons_self _ _) he.symm)
  · rw [processCluster_multi]
    exact (assignMulti_post st now (c :: cp :: cs) _).2.2.2.1 key hk

/-- The last-seen table after processing a nonempty cluster is exactly a
refresh of the chosen global id at the cycle time. -/
theorem processCluster_lastSeen (st : FState) (now : ℚ) (cl : List Cand)
    (hne : cl ≠ []) :
    (processCluster st now cl).1.global_tid_last_seen
      = dinsert st.global_tid_last_seen
        (processCluster st now cl).2.global_tid now := by
  rcases cl with _ | ⟨c, _ | ⟨cp, cs⟩⟩
  · exact absurd rfl hne
  · rw [processCluster_single]
    exact (assign_post st now c).2.2.2.2.2
  · rw [processCluster_multi]
    exact (assignMulti_post st now (c :: cp :: cs) _).2.2.2.2.2

/-- Full postcondition of processing the cluster that contains `key`. -/
theorem processCluster_post (st : FState) (now : ℚ) (cl : List Cand)
    (hne : cl ≠ []) :
    (processCluster st now cl).2.source_tids = cl.map Cand.key ∧
    (∀ c ∈ cl,
      dlookup (processCluster st now cl).1.radar_to_global_tid c.key
        = some (processCluster st now cl).2.global_tid) ∧
    (∀ (c : Cand) (g : Nat), c ∈ cl →
      dlookup st.radar_to_global_tid c.key = some g →
      (processCluster st now cl).2.global_tid ≤ g ∧
      ((processCluster st now cl).2.num_radars_detected = 1 →
        (processCluster st now cl).2.global_tid = g)) := by
  rcases cl with _ | ⟨c, _ | ⟨cp, cs⟩⟩
  · exact absurd rfl hne
  · rw [processCluster_single]
    refine ⟨by simpa using (assign_post st now c).1, ?_, ?_⟩
    · intro c' hc'
      rcases List.mem_cons.mp hc' with he | hm
      · rw [he]
        exact (assign_post st now c).2.2.1
      · simp at hm
    · intro c' g hc' hg
      rcases List.mem_cons.mp hc' with he | hm
      · rw [he] at hg
        have := (assign_post st now c).2.2.2.2.1 g hg
        exact ⟨le_of_eq this, fun _ => this⟩
      · simp at hm
  · rw [processCluster_multi]
    refine ⟨merge_source_tids st now c cp cs, ?_, ?_⟩
    · intro c' hc'
      exact (assignMulti_post st now (c :: cp :: cs) _).2.2.1 c' hc'
    · intro c' g hc' hg
      refine ⟨(assignMulti_post st now (c :: cp :: cs) _).2.2.2.2.1 g c'
        hc' hg, ?_⟩
      intro hnum
      rw [merge_num_radars] at hnum
      simp at hnum

/-- Later clusters never change a key outside their members. -/
theorem processClusters_untouched (now : ℚ) :
    ∀ (cls : List (List Cand)) (st : FState) (key : String × Nat),
    key ∉ (cls.map (fun cl => cl.map Cand.key)).flatten →
    dlookup (processClusters now st cls).1.radar_to_global_tid key
      = dlookup st.radar_to_global_tid key := by
  intro cls
  induction cls with
  | nil => intro st key _; rfl
  | cons cl rest ih =>
    intro st key hk
    simp only [List.map_cons, List.flatten_cons, List.mem_append] at hk
    push_neg at hk
    simp only [processClusters]
    rw [ih _ key hk.2]
    exact processCluster_untouched st now cl key
      (fun c hc he => hk.1 (he ▸ List.mem_map_of_mem Cand.key hc))

/-- Refreshes during one cycle all carry the same timestamp `now`, so
"every entry for `g` is stamped `now`" is stable across the cycle. -/
theorem processClusters_lastSeen_now (now : ℚ) :
    ∀ (cls : List (List Cand)) (st : FState) (g : Nat),
    (∀ cl ∈ cls, cl ≠ []) →
    (∀ p ∈ st.global_tid_last_seen, p.1 = g → p.2 = now) →
    ∀ p ∈ (processClusters now st cls).1.global_tid_last_seen,
      p.1 = g → p.2 = now := by
  intro cls
  induction cls with
  | nil => intro st g _ hst; exact hst
  | cons cl rest ih =>
    intro st g hne hst
    simp only [processClusters]
    refine ih _ g (fun cl' hcl' => hne cl' (List.mem_cons_of_mem _ hcl')) ?_
    rw [processCluster_lastSeen st now cl (hne cl (List.mem_cons_self _ _))]
    intro p hp hpg
    rcases mem_dinsert _ _ _ _ hp with he | hm
    · rw [he]
    · exact hst p hm hpg

/-- Every key in an output's `source_tids` comes from the clusters. -/
theorem processClusters_sourceTids_sub (now : ℚ) :
    ∀ (cls : List (List Cand)) (st : FState),
    (∀ cl ∈ cls, cl ≠ []) →
    ∀ f ∈ (processClusters now st cls).2, ∀ key ∈ f.source_tids,
      key ∈ (cls.map (fun cl => cl.map Cand.key)).flatten := by
  intro cls
  induction cls with
  | nil => intro st _ f hf; simp [processClusters] at hf
  | cons cl rest ih =>
    intro st hne f hf key hkey
    simp only [processClusters] at hf
    simp only [List.map_cons, List.flatten_cons, List.mem_append]
    rcases List.mem_cons.mp hf with he | hm
    · left
      rw [he] at hkey
      rw [(processCluster_post st now cl
        (hne cl (List.mem_cons_self _ _))).1] at hkey
      exact hkey
    · right
      exact ih _ (fun cl' hcl' => hne cl' (List.mem_cons_of_mem _ hcl'))
        f hm key hkey


/-- Main cycle postcondition: for every output track `f` and every key
it lists, the final mapping points that key at `f`'s global id, every
last-seen entry for that id is stamped with this cycle's time, and the
id relates to the key's entry-state mapping: never fresh when the key
was mapped, never larger, and equal for singletons. -/
theorem processClusters_post (now : ℚ) :
    ∀ (cls : List (List Cand)) (st : FState),
    (∀ cl ∈ cls, cl ≠ []) →
    ((cls.map (fun cl => cl.map Cand.key)).flatten).Nodup →
    ∀ f ∈ (processClusters now st cls).2, ∀ key ∈ f.source_tids,
      dlookup (processClusters now st cls).1.radar_to_global_tid key
        = some f.global_tid ∧
      (∀ p ∈ (processClusters now st cls).1.global_tid_last_seen,
        p.1 = f.global_tid → p.2 = now) ∧
      (∀ g, dlookup st.radar_to_global_tid key = some g →
        f.global_tid ≤ g ∧
        (f.num_radars_detected = 1 → f.global_tid = g)) := by
  intro cls
  induction cls with
  | nil => intro st _ _ f hf; simp [processClusters] at hf
  | cons cl rest ih =>
    intro st hne hnd f hf key hkey
    have hclne : cl ≠ [] := hne cl (List.mem_cons_self _ _)
    have hrestne : ∀ cl' ∈ rest, cl' ≠ [] :=
      fun cl' h => hne cl' (List.mem_cons_of_mem _ h)
    rw [List.map_cons, List.flatten_cons, List.nodup_append] at hnd
    obtain ⟨hnd1, hnd2, hdisj⟩ := hnd
    simp only [processClusters] at hf ⊢
    rcases List.mem_cons.mp hf with he | hm
    · subst he
      have hpost := processCluster_post st now cl hclne
      have hkeys : key ∈ cl.map Cand.key := by
        rw [hpost.1] at hkey
        exact hkey
      obtain ⟨c, hc, hck⟩ := List.mem_map.mp hkeys
      refine ⟨?_, ?_, ?_⟩
      · rw [processClusters_untouched now rest _ key
          (fun hmem => hdisj hkeys hmem)]
        rw [← hck]
        exact hpost.2.1 c hc
      · apply processClusters_lastSeen_now now rest _ _ hrestne
        rw [processCluster_lastSeen st now cl hclne]
        exact fun p hp hpg => dinsert_key_val _ _ _ p hp hpg
      · intro g hg
        rw [← hck] at hg
        exact hpost.2.2 c g hc hg
    · have hkeyrest : key ∈ (rest.map (fun cl => cl.map Cand.key)).flatten :=
        processClusters_sourceTids_sub now rest _ hrestne f hm key hkey
      have hkeycl : key ∉ cl.map Cand.key :=
        fun hmem => hdisj hmem hkeyrest
      have ihh := ih (processCluster st now cl).1 hrestne hnd2 f hm key hkey
      refine ⟨ihh.1, ihh.2.1, ?_⟩
      intro g hg
      apply ihh.2.2 g
      rw [processCluster_untouched st now cl key
        (fun c hc he => hkeycl (he ▸ List.mem_map_of_mem Cand.key hc))]
      exact hg


theorem clustersOf_count (cs : List Cand) (thr : ℚ) (j : Nat) :
    ((clustersOf cs thr).flatten).count j = if j < cs.length then 1 else 0 := by
  have h := greedyGo_count (cs.map (·.pos)) thr
    (List.range (cs.map (·.pos)).length) []
    (fun j hj _ => List.mem_range.mpr hj)
    (fun j hj => List.mem_range.mp hj) j
  simpa [clustersOf, List.length_map] using h

theorem clustersOf_flatten_nodup (cs : List Cand) (thr : ℚ) :
    ((clustersOf cs thr).flatten).Nodup := by
  rw [List.nodup_iff_count_le_one]
  intro a
  rw [clustersOf_count]
  split <;> omega

theorem clustersOf_flatten_lt (cs : List Cand) (thr : ℚ) :
    ∀ j ∈ (clustersOf cs thr).flatten, j < cs.length := by
  intro j hj
  by_contra hge
  have h0 := clustersOf_count cs thr j
  rw [if_neg hge] at h0
  have h1 := List.count_pos_iff.mpr hj
  omega

theorem filterMap_flatten {α β : Type} (f : α → Option β) :
    ∀ L : List (List α),
    L.flatten.filterMap f = (L.map (List.filterMap f)).flatten := by
  intro L
  induction L with
  | nil => rfl
  | cons a L ih => simp [List.filterMap_append, ih]

theorem nodup_keys_filterMap (cs : List Cand)
    (hnd : (cs.map Cand.key).Nodup) :
    ∀ idxs : List Nat, idxs.Nodup → (∀ i ∈ idxs, i < cs.length) →
    ((idxs.filterMap (fun i => cs[i]?)).map Cand.key).Nodup := by
  intro idxs
  induction idxs with
  | nil => intro _ _; simp
  | cons i idxs ih =>
    intro hnd' hlt
    have hi : i < cs.length := hlt i (List.mem_cons_self _ _)
    have hci : cs[i]? = some cs[i] := List.getElem?_eq_getElem hi
    simp only [List.filterMap_cons, hci]
    rw [List.map_cons, List.nodup_cons]
    rw [List.nodup_cons] at hnd'
    constructor
    · intro hmem
      rw [List.mem_map] at hmem
      obtain ⟨c', hc', hkeq⟩ := hmem
      rw [List.mem_filterMap] at hc'
      obtain ⟨j, hj, hcj⟩ := hc'
      have h1 : (cs.map Cand.key)[i]? = some (Cand.key cs[i]) := by
        rw [List.getElem?_map, hci]
        rfl
      have h2 : (cs.map Cand.key)[j]? = some (Cand.key cs[i]) := by
        rw [List.getElem?_map, hcj]
        simp [hkeq]
      have hij : i = j := List.getElem?_inj
        (by simpa [List.length_map] using hi) hnd (h1.trans h2.symm)
      exact hnd'.1 (hij ▸ hj)
    · exact ih hnd'.2 (fun j hj => hlt j (List.mem_cons_of_mem _ hj))

/-- With globally distinct candidate keys, the per-cluster key lists are
jointly duplicate-free. -/
theorem clusters_keys_nodup (cs : List Cand) (thr : ℚ)
    (hnd : (cs.map Cand.key).Nodup) :
    ((((clustersOf cs thr).map (clusterCands cs)).map
      (fun cl => cl.map Cand.key)).flatten).Nodup := by
  rw [List.map_map]
  have hcomp : ((fun cl : List Cand => cl.map Cand.key) ∘ clusterCands cs)
      = fun idxs : List Nat =>
        idxs.filterMap (fun i => (cs[i]?).map Cand.key) := by
    funext idxs
    exact List.map_filterMap _ _ _
  rw [hcomp, ← filterMap_flatten, ← List.map_filterMap]
  exact nodup_keys_filterMap cs hnd (clustersOf cs thr).flatten
    (clustersOf_flatten_nodup cs thr) (clustersOf_flatten_lt cs thr)

theorem clusters_cands_ne_nil (cs : List Cand) (thr : ℚ) :
    ∀ cl ∈ (clustersOf cs thr).map (clusterCands cs), cl ≠ [] := by
  intro cl hcl
  rw [List.mem_map] at hcl
  obtain ⟨idxs, hidxs, he⟩ := hcl
  have hidxs' := hidxs
  rw [clustersOf] at hidxs'
  have hne := greedyGo_ne_nil (cs.map (·.pos)) thr _ _ idxs hidxs'
  obtain ⟨i, hi⟩ := List.exists_mem_of_ne_nil _ hne
  have hlt : i < cs.length := clustersOf_flatten_lt cs thr i
    (List.mem_flatten.mpr ⟨idxs, hidxs, hi⟩)
  intro hnil
  have hmem : cs[i] ∈ clusterCands cs idxs :=
    List.mem_filterMap.mpr ⟨i, hi, List.getElem?_eq_getElem hlt⟩
  rw [he.trans hnil] at hmem
  simp at hmem

theorem fuseTracks_eq (st : FState) (now : ℚ) (frames : List Frame)
    (h1 : frames ≠ []) (h2 : candsOf frames ≠ []) :
    fuseTracks st now frames =
      processClusters now (cleanupOldTids st now)
        ((clustersOf (candsOf frames)
          (cleanupOldTids st now).distance_threshold).map
          (clusterCands (candsOf frames))) := by
  simp only [fuseTracks]
  rw [if_neg (by simpa [List.isEmpty_iff] using h1),
    if_neg (by simpa [List.isEmpty_iff] using h2)]

theorem mem_fuse_nonempty (st : FState) (now : ℚ) (frames : List Frame)
    (f : FusedTrack) (hf : f ∈ (fuseTracks st now frames).2) :
    frames ≠ [] ∧ candsOf frames ≠ [] := by
  by_cases h1 : frames.isEmpty
  · exfalso
    simp only [fuseTracks, if_pos h1] at hf
    exact List.not_mem_nil f hf
  · by_cases h2 : (candsOf frames).isEmpty
    · exfalso
      simp only [fuseTracks, if_neg h1] at hf
      rw [if_pos h2] at hf
      exact List.not_mem_nil f hf
    · exact ⟨by simpa [List.isEmpty_iff] using h1,
        by simpa [List.isEmpty_iff] using h2⟩

/-- A mapping whose global id was refreshed during this window survives
the cleanup of the next cycle. -/
theorem cleanup_keeps_fresh (st : FState) (now2 : ℚ) (key : String × Nat)
    (g : Nat)
    (hlk : dlookup st.radar_to_global_tid key = some g)
    (hfresh : ∀ p ∈ st.global_tid_last_seen, p.1 = g →
      ¬ (st.tid_timeout < now2 - p.2)) :
    dlookup (cleanupOldTids st now2).radar_to_global_tid key = some g := by
  rw [cleanupOldTids]
  apply dlookup_filter _ _ _ _ hlk
  simp only [decide_eq_true_eq]
  intro hgold
  rw [List.mem_map] at hgold
  obtain ⟨p, hp, hp1⟩ := hgold
  rw [List.mem_filter] at hp
  exact hfresh p hp.1 hp1 (by simpa using hp.2)


/-- C2 amended: across two consecutive `fuse_tracks` calls separated by
less than the identity timeout, with duplicate-free candidate keys in
each call, a `(radar_name, tid)` key contributing to an output track of
both calls is never assigned a fresh id in the second call: its
second-cycle global id never exceeds its first-cycle id, and equals it
whenever its second-cycle track is a singleton (the claim as frozen —
unconditional equality — fails when a merge adopts a smaller id; see
`identity_stability_counterexample`). -/
theorem identity_stability_amended (st : FState) (now1 now2 : ℚ)
    (frames1 frames2 : List Frame) (key : String × Nat)
    (f1 f2 : FusedTrack)
    (hnd1 : ((candsOf frames1).map Cand.key).Nodup)
    (hnd2 : ((candsOf frames2).map Cand.key).Nodup)
    (hgap : now2 - now1 < st.tid_timeout)
    (hf1 : f1 ∈ (fuseTracks st now1 frames1).2)
    (hk1 : key ∈ f1.source_tids)
    (hf2 : f2 ∈ (fuseTracks (fuseTracks st now1 frames1).1 now2 frames2).2)
    (hk2 : key ∈ f2.source_tids) :
    f2.global_tid ≤ f1.global_tid ∧
    (f2.num_radars_detected = 1 → f2.global_tid = f1.global_tid) := by
  obtain ⟨hf1a, hf1b⟩ := mem_fuse_nonempty st now1 frames1 f1 hf1
  have he1 := fuseTracks_eq st now1 frames1 hf1a hf1b
  rw [he1] at hf1 hf2
  set st1 := (processClusters now1 (cleanupOldTids st now1)
    ((clustersOf (candsOf frames1)
      (cleanupOldTids st now1).distance_threshold).map
      (clusterCands (candsOf frames1)))).1 with hst1
  have hpost1 := processClusters_post now1 _ (cleanupOldTids st now1)
    (clusters_cands_ne_nil _ _) (clusters_keys_nodup _ _ hnd1) f1 hf1 key hk1
  obtain ⟨hlk1, hls1, _⟩ := hpost1
  obtain ⟨hf2a, hf2b⟩ := mem_fuse_nonempty st1 now2 frames2 f2 hf2
  have he2 := fuseTracks_eq st1 now2 frames2 hf2a hf2b
  rw [he2] at hf2
  have htime : st1.tid_timeout = st.tid_timeout := by
    rw [hst1, processClusters_tid_timeout]
    rfl
  have hkeep := cleanup_keeps_fresh st1 now2 key f1.global_tid hlk1
    (fun p hp hpg => by
      rw [hls1 p hp hpg, htime]
      exact lt_asymm hgap)
  have hpost2 := processClusters_post now2 _ (cleanupOldTids st1 now2)
    (clusters_cands_ne_nil _ _) (clusters_keys_nodup _ _ hnd2) f2 hf2 key hk2
  exact hpost2.2.2 f1.global_tid hkeep


/-- Witness for the amended C2 on the two-cycle scenario: the key
`("A", 1)` holds id 1 in both cycles (singleton, then merged). -/
theorem identity_stability_amended_witness :
    ((candsOf cexFrames1).map Cand.key).Nodup ∧
    ((candsOf cexFrames2).map Cand.key).Nodup ∧
    ((1 : ℚ) - 0 < (FState.init 1).tid_timeout) ∧
    ((⟨⟨0, 0, 0⟩, ⟨0, 0, 0⟩, ⟨0, 0, 0⟩, 1, 1, 2, ["A", "B"],
        [("A", 1), ("B", 2)], 1⟩ : FusedTrack).global_tid
      ≤ (⟨⟨0, 0, 0⟩, ⟨0, 0, 0⟩, ⟨0, 0, 0⟩, 1, 1, 1, ["A"], [("A", 1)],
        0⟩ : FusedTrack).global_tid ∧
     ((⟨⟨0, 0, 0⟩, ⟨0, 0, 0⟩, ⟨0, 0, 0⟩, 1, 1, 2, ["A", "B"],
        [("A", 1), ("B", 2)], 1⟩ : FusedTrack).num_radars_detected = 1 →
      (⟨⟨0, 0, 0⟩, ⟨0, 0, 0⟩, ⟨0, 0, 0⟩, 1, 1, 2, ["A", "B"],
        [("A", 1), ("B", 2)], 1⟩ : FusedTrack).global_tid
        = (⟨⟨0, 0, 0⟩, ⟨0, 0, 0⟩, ⟨0, 0, 0⟩, 1, 1, 1, ["A"], [("A", 1)],
          0⟩ : FusedTrack).global_tid)) :=
  ⟨by decide, by decide, by norm_num [FState.init],
   identity_stability_amended (FState.init 1) 0 1 cexFrames1 cexFrames2
     ("A", 1)
     ⟨⟨0, 0, 0⟩, ⟨0, 0, 0⟩, ⟨0, 0, 0⟩, 1, 1, 1, ["A"], [("A", 1)], 0⟩
     ⟨⟨0, 0, 0⟩, ⟨0, 0, 0⟩, ⟨0, 0, 0⟩, 1, 1, 2, ["A", "B"],
       [("A", 1), ("B", 2)], 1⟩
     (by decide) (by decide) (by norm_num [FState.init])
     (by
       rw [fuseEvalCall1]
       exact List.Mem.head _)
     (by decide)
     (by
       rw [fuseEvalCall1]
       rw [show ((⟨1, 3, [(("A", 1), 1), (("B", 2), 2)], [(1, 0), (2, 0)],
           2⟩,
           [(⟨⟨0, 0, 0⟩, ⟨0, 0, 0⟩, ⟨0, 0, 0⟩, 1, 1, 1, ["A"], [("A", 1)],
             0⟩ : FusedTrack),
            ⟨⟨10, 0, 0⟩, ⟨0, 0, 0⟩, ⟨0, 0, 0⟩, 1, 2, 1, ["B"], [("B", 2)],
             0⟩])
           : FState × List FusedTrack).1
           = ⟨1, 3, [(("A", 1), 1), (("B", 2), 2)], [(1, 0), (2, 0)], 2⟩
           from rfl,
         fuseEvalCall2]
       exact List.Mem.head _)
     (by decide)⟩


/-! ### `fuse_tracks` does not mutate its inputs (C10)

Python dicts are heap objects; `fuse_tracks` takes frame dicts holding
lists of track-dict references, calls `track.copy()` on each, tags and
mutates only the copies (`_assign_global_tid` writes into its argument,
which is always a copy), and builds merged tracks as fresh dicts.  To
state this, track dicts live in an explicit store (heap) addressed by
indices; frames hold references.  A `TrackObj` carries the track keys
the reader produces plus the optional keys fusion may add; frame dicts
themselves are only read by the source, which the reference-passing
model reflects directly. -/

structure TrackObj where
  tid : Nat
  pos : Vec3
  vel : Vec3
  acc : Vec3
  conf : ℚ
  radar_name : Option String
  timestamp : Option ℚ
  global_tid : Option Nat
  num_radars_detected : Option Nat
  source_radars : Option (List String)
  source_tids : Option (List (String × Nat))
  deriving Repr, DecidableEq

instance : Inhabited TrackObj :=
  ⟨⟨0, ⟨0, 0, 0⟩, ⟨0, 0, 0⟩, ⟨0, 0, 0⟩, 0, none, none, none, none, none,
    none⟩⟩

/-- A frame dict: name, timestamp, and references to track dicts. -/
structure FrameRef where
  radar_name : String
  timestamp : ℚ
  trackRefs : List Nat
  deriving Repr, DecidableEq

/-- View of a (tagged) track object as a fusion candidate; extraction
always sets the tags, so the defaults never matter on the fusion path. -/
def toCand (o : TrackObj) : Cand :=
  ⟨o.tid, o.pos, o.vel, o.acc, o.conf, o.radar_name.getD "",
   o.timestamp.getD 0⟩

/-- The fresh dict built for a merged cluster (it has no `tid` or
`radar_name` key of its own; the mandatory `tid` slot is unused). -/
def ofFused (f : FusedTrack) : TrackObj :=
  ⟨0, f.pos, f.vel, f.acc, f.conf, none, some f.timestamp,
   some f.global_tid, some f.num_radars_detected, some f.source_radars,
   some f.source_tids⟩

/-- `track.copy()` followed by the two tag writes on the copy. -/
def tagCopy (f : FrameRef) (o : TrackObj) : TrackObj :=
  { o with radar_name := some f.radar_name, timestamp := some f.timestamp }

/-- The per-frame extraction loop: `track.copy()`, tag the copy with
`radar_name` and the frame timestamp, append it to the heap, and record
its reference. -/
def extractTracks (f : FrameRef) : List Nat → List TrackObj →
    List TrackObj × List Nat
  | [], store => (store, [])
  | r :: rs, store =>
    let copy := tagCopy f (store.getD r default)
    let q := extractTracks f rs (store ++ [copy])
    (q.1, store.length :: q.2)

def extractFrames : List FrameRef → List TrackObj →
    List TrackObj × List Nat
  | [], store => (store, [])
  | f :: fs, store =>
    let p := extractTracks f f.trackRefs store
    let q := extractFrames fs p.1
    (q.1, p.2 ++ q.2)

/-- Process one cluster of candidate references: a singleton mutates the
(copied) candidate dict in place with the four identity tags; a larger
cluster builds a fresh merged dict and appends it.  Identity-state
updates are those of the pure model on the candidate views. -/
def processClusterStore (store : List TrackObj) (st : FState) (now : ℚ)
    (refs : List Nat) : List TrackObj × FState × Nat :=
  if 1 < refs.length then
    let r := mergeMultipleTracks st now
      (refs.map (fun r => toCand (store.getD r default)))
    (store ++ [ofFused r.2], r.1, store.length)
  else
    match refs with
    | [r] =>
      let obj := store.getD r default
      let a := assignGlobalTid st now (toCand obj)
      (store.set r { obj with
          global_tid := some a.2.global_tid,
          num_radars_detected := some a.2.num_radars_detected,
          source_radars := some a.2.source_radars,
          source_tids := some a.2.source_tids },
       a.1, r)
    | _ => (store, st, 0)

def processClustersStore (now : ℚ) : List TrackObj → FState →
    List (List Nat) → List TrackObj × FState × List Nat
  | store, st, [] => (store, st, [])
  | store, st, cl :: rest =>
    let p := processClusterStore store st now cl
    let q := processClustersStore now p.1 p.2.1 rest
    (q.1, q.2.1, p.2.2 :: q.2.2)

/-- `TrackFusion.fuse_tracks` over the heap model: early empty returns,
cleanup, extraction of tagged copies, greedy clustering on the copies'
positions, then per-cluster processing.  Returns the final heap, the
identity state, and references to the output tracks. -/
def fuseTracksStore (store : List TrackObj) (st : FState) (now : ℚ)
    (frames : List FrameRef) : List TrackObj × FState × List Nat :=
  if frames.isEmpty then (store, st, [])
  else
    let st1 := cleanupOldTids st now
    let p := extractFrames frames store
    if p.2.isEmpty then (p.1, st1, [])
    else
      let ps := p.2.map (fun r => (p.1.getD r default).pos)
      let cls := greedyGo ps st1.distance_threshold
        (List.range p.2.length) []
      processClustersStore now p.1 st1
        (cls.map (fun idxs => idxs.filterMap (fun i => p.2[i]?)))

theorem take_set_of_le {α : Type} (l : List α) (i n : Nat) (x : α)
    (h : n ≤ i) : (l.set i x).take n = l.take n := by
  apply List.ext_getElem?
  intro j
  by_cases hj : j < n
  · rw [List.getElem?_take_of_lt hj, List.getElem?_take_of_lt hj,
      List.getElem?_set_ne (by omega)]
  · rw [List.getElem?_eq_none (by simp [List.length_take]; omega),
      List.getElem?_eq_none (by simp [List.length_take]; omega)]

theorem extractTracks_ext (f : FrameRef) :
    ∀ (rs : List Nat) (store : List TrackObj),
    ((extractTracks f rs store).1.take store.length = store ∧
     store.length ≤ (extractTracks f rs store).1.length) ∧
    (∀ r ∈ (extractTracks f rs store).2, store.length ≤ r) := by
  intro rs
  induction rs with
  | nil =>
    intro store
    exact ⟨⟨List.take_length store, le_refl _⟩, by simp [extractTracks]⟩
  | cons r rs ih =>
    intro store
    refine ⟨⟨?_, ?_⟩, ?_⟩
    · simp only [extractTracks]
      have h1 := (ih (store ++ [tagCopy f (store.getD r default)])).1.1
      have hmin : store.length = min store.length
          (store ++ [tagCopy f (store.getD r default)]).length := by
        simp [List.length_append]
      rw [hmin, ← List.take_take, h1,
        List.take_append_of_le_length (by simp), List.take_length]
    · simp only [extractTracks]
      have h2 := (ih (store ++ [tagCopy f (store.getD r default)])).1.2
      simp only [List.length_append] at h2
      omega
    · intro r' hr'
      simp only [extractTracks] at hr'
      rcases List.mem_cons.mp hr' with he | hm
      · omega
      · have h3 := (ih (store ++ [tagCopy f (store.getD r default)])).2
          r' hm
        simp only [List.length_append] at h3
        omega


theorem extractFrames_ext :
    ∀ (fs : List FrameRef) (store : List TrackObj),
    ((extractFrames fs store).1.take store.length = store ∧
     store.length ≤ (extractFrames fs store).1.length) ∧
    (∀ r ∈ (extractFrames fs store).2, store.length ≤ r) := by
  intro fs
  induction fs with
  | nil =>
    intro store
    exact ⟨⟨List.take_length store, le_refl _⟩, by simp [extractFrames]⟩
  | cons f fs ih =>
    intro store
    simp only [extractFrames]
    have e1 := extractTracks_ext f f.trackRefs store
    have e2 := ih (extractTracks f f.trackRefs store).1
    have hn : store.length ≤ (extractTracks f f.trackRefs store).1.length :=
      e1.1.2
    refine ⟨⟨?_, ?_⟩, ?_⟩
    · have hcalc : (extractFrames fs
          (extractTracks f f.trackRefs store).1).1.take store.length
          = ((extractFrames fs (extractTracks f f.trackRefs store).1).1.take
              (extractTracks f f.trackRefs store).1.length).take
              store.length := by
        rw [List.take_take, Nat.min_eq_left hn]
      rw [hcalc, e2.1.1, e1.1.1]
    · have h2 := e2.1.2
      omega
    · intro r hr
      rcases List.mem_append.mp hr with hm | hm
      · exact e1.2 r hm
      · have h3 := e2.2 r hm
        omega

theorem processClusterStore_single_shape (store : List TrackObj)
    (st : FState) (now : ℚ) (r : Nat) :
    ∃ (x : TrackObj) (st' : FState),
      processClusterStore store st now [r] = (store.set r x, st', r) :=
  ⟨_, _, rfl⟩

theorem processClusterStore_multi_shape (store : List TrackObj)
    (st : FState) (now : ℚ) (r1 r2 : Nat) (rs : List Nat) :
    ∃ (x : TrackObj) (st' : FState),
      processClusterStore store st now (r1 :: r2 :: rs)
        = (store ++ [x], st', store.length) := by
  refine ⟨ofFused (mergeMultipleTracks st now
      ((r1 :: r2 :: rs).map (fun r => toCand (store.getD r default)))).2,
    (mergeMultipleTracks st now
      ((r1 :: r2 :: rs).map (fun r => toCand (store.getD r default)))).1,
    ?_⟩
  simp only [processClusterStore]
  rw [if_pos (by simp)]

theorem processClusterStore_take (st : FState) (now : ℚ) (n : Nat)
    (store : List TrackObj) (refs : List Nat)
    (hn : n ≤ store.length) (hrefs : ∀ r ∈ refs, n ≤ r) :
    (processClusterStore store st now refs).1.take n = store.take n ∧
    n ≤ (processClusterStore store st now refs).1.length := by
  rcases refs with _ | ⟨r, _ | ⟨r2, rs⟩⟩
  · exact ⟨rfl, hn⟩
  · obtain ⟨x, st', he⟩ := processClusterStore_single_shape store st now r
    rw [he]
    exact ⟨take_set_of_le _ _ _ _ (hrefs r (by simp)),
      by rw [List.length_set]; exact hn⟩
  · obtain ⟨x, st', he⟩ :=
      processClusterStore_multi_shape store st now r r2 rs
    rw [he]
    refine ⟨List.take_append_of_le_length hn, ?_⟩
    simp only [List.length_append]
    omega

theorem processClustersStore_take (now : ℚ) (n : Nat) :
    ∀ (cls : List (List Nat)) (store : List TrackObj) (st : FState),
    n ≤ store.length → (∀ cl ∈ cls, ∀ r ∈ cl, n ≤ r) →
    (processClustersStore now store st cls).1.take n = store.take n ∧
    n ≤ (processClustersStore now store st cls).1.length := by
  intro cls
  induction cls with
  | nil => intro store st hn _; exact ⟨rfl, hn⟩
  | cons cl rest ih =>
    intro store st hn hrefs
    simp only [processClustersStore]
    have h1 := processClusterStore_take st now n store cl hn
      (hrefs cl (List.mem_cons_self _ _))
    have h2 := ih (processClusterStore store st now cl).1
      (processClusterStore store st now cl).2.1 h1.2
      (fun cl' hcl' => hrefs cl' (List.mem_cons_of_mem _ hcl'))
    exact ⟨h2.1.trans h1.1, h2.2⟩

/-- C10: `fuse_tracks` does not mutate its inputs.  All tagging and
identity writes land on per-call copies or fresh merged dicts, so after
the call the heap prefix holding the caller's objects is unchanged: every
track dict referenced by an input frame holds exactly the fields it held
before (frame dicts are only read).  -/
theorem fuse_tracks_preserves_inputs (store : List TrackObj) (st : FState)
    (now : ℚ) (frames : List FrameRef) :
    (fuseTracksStore store st now frames).1.take store.length = store ∧
    (∀ fr ∈ frames, ∀ r ∈ fr.trackRefs, r < store.length →
      (fuseTracksStore store st now frames).1[r]? = store[r]?) := by
  have hmain : (fuseTracksStore store st now frames).1.take store.length
      = store := by
    simp only [fuseTracksStore]
    split
    · exact List.take_length store
    · split
      · exact (extractFrames_ext frames store).1.1
      · have e := extractFrames_ext frames store
        have hcls : ∀ cl ∈ (greedyGo ((extractFrames frames store).2.map
            (fun r => ((extractFrames frames store).1.getD r default).pos))
            (cleanupOldTids st now).distance_threshold
            (List.range (extractFrames frames store).2.length) []).map
            (fun idxs => idxs.filterMap
              (fun i => (extractFrames frames store).2[i]?)),
            ∀ r ∈ cl, store.length ≤ r := by
          intro cl hcl r hr
          rw [List.mem_map] at hcl
          obtain ⟨idxs, _, he⟩ := hcl
          rw [← he] at hr
          rw [List.mem_filterMap] at hr
          obtain ⟨i, _, hi⟩ := hr
          exact e.2 r (List.getElem?_mem hi)
        have h := processClustersStore_take now store.length _
          (extractFrames frames store).1 (cleanupOldTids st now) e.1.2 hcls
        rw [h.1, e.1.1]
  refine ⟨hmain, ?_⟩
  intro fr hfr r hr hrlt
  conv_rhs => rw [← hmain]
  rw [List.getElem?_take_of_lt hrlt]

def c10Store : List TrackObj := [default, default]

def c10Fr : FrameRef := ⟨"Radar1", 0, [0, 1]⟩

theorem fuse_tracks_preserves_inputs_witness :
    c10Fr ∈ [c10Fr] ∧ 0 ∈ c10Fr.trackRefs ∧ 0 < c10Store.length ∧
    ((fuseTracksStore c10Store (FState.init 1) 0 [c10Fr]).1.take
        c10Store.length = c10Store ∧
      (fuseTracksStore c10Store (FState.init 1) 0 [c10Fr]).1[0]?
        = c10Store[0]?) :=
  ⟨List.mem_singleton.mpr rfl, by decide, by decide,
   (fuse_tracks_preserves_inputs c10Store (FState.init 1) 0 [c10Fr]).1,
   (fuse_tracks_preserves_inputs c10Store (FState.init 1) 0 [c10Fr]).2
     c10Fr (List.mem_singleton.mpr rfl) 0 (by decide) (by decide)⟩

end RadarInteg
